import Mathlib

/-!
Shallow embedding of the gonostic agent-orchestration core
(pkg/agent: llm_agent.go, agents.go, state.go, types.go).

Go values of type `interface{}` are modelled by `GoVal`; Go maps
`map[string]interface{}` by association lists with a set operation that
replaces the bound key (Go map iteration order is unspecified, so list
order is a deterministic refinement that claims never depend on).
Go `error` values are modelled by `Option String` (the error message),
and durations/timestamps/token counters are omitted: no claim mentions
real time or metrics.
-/

namespace Gonostic

/-- Model of a Go `interface{}` value as it flows through this package. -/
inductive GoVal where
  | vnil : GoVal
  | vstr (s : String) : GoVal
  | vint (n : Int) : GoVal
  | vbool (b : Bool) : GoVal
  | vmap (entries : List (String × GoVal)) : GoVal

/-- A Go `map[string]interface{}` as an association list. -/
abbrev StateMap := List (String × GoVal)

/-- Go map assignment `m[k] = v`: bind `k` to `v`, dropping any previous binding. -/
def stateSet (m : StateMap) (k : String) (v : GoVal) : StateMap :=
  (k, v) :: m.filter (fun e => e.1 ≠ k)

/-- Go map lookup `m[k]` (with presence flag folded into `Option`). -/
def stateGet (m : StateMap) (k : String) : Option GoVal :=
  (m.find? (fun e => e.1 == k)).map (fun e => e.2)

mutual
/-- `fmt.Sprint` of a `GoVal` (map entries rendered in list order, a
deterministic refinement of Go's sorted map printing; no claim depends on it). -/
def goSprint : GoVal → String
  | .vnil => "<nil>"
  | .vstr s => s
  | .vint n => toString n
  | .vbool b => if b then "true" else "false"
  | .vmap es => "map[" ++ String.intercalate " " (goSprintEntries es) ++ "]"

/-- Rendering of map entries for `goSprint`. -/
def goSprintEntries : List (String × GoVal) → List String
  | [] => []
  | (k, v) :: rest => (k ++ ":" ++ goSprint v) :: goSprintEntries rest
end

/-- `strings.ToLower` (ASCII case mapping suffices for every string the
repository compares). -/
def strToLower (s : String) : String := ⟨s.data.map Char.toLower⟩

/-- Substring occurrence test on character lists, structurally recursive so
the kernel can evaluate it. -/
def listHasSub : List Char → List Char → Bool
  | s, sub =>
    if sub.isPrefixOf s then true
    else
      match s with
      | [] => false
      | _ :: rest => listHasSub rest sub

/-- `strings.Contains s sub` (an empty `sub` is contained in every string). -/
def strContains (s sub : String) : Bool := listHasSub s.data sub.data

/-- `strings.HasPrefix`. -/
def strHasPre (s p : String) : Bool := p.data.isPrefixOf s.data

/-- `strings.HasSuffix`. -/
def strHasSuf (s p : String) : Bool := p.data.isSuffixOf s.data

/-- types.go `FileInput` (metadata omitted: never read by the core). -/
structure FileInput where
  name : String := ""
  typ : String := ""
  content : List Nat := []
  uri : String := ""

/-- types.go `Part`. -/
structure Part where
  typ : String := ""
  text : String := ""
  data : List Nat := []

/-- types.go `Message`. -/
structure Message where
  role : String
  content : String
  parts : List Part := []

/-- types.go `ToolCall`; `Result` is `interface{}` (`none` = nil),
`Error` is `Option String`. -/
structure ToolCall where
  id : String := ""
  name : String
  arguments : List (String × GoVal) := []
  result : Option GoVal := none
  error : Option String := none

/-- types.go `Tool`: `run` is `Execute`, returning (result, error) exactly as
the Go pair, so a tool may return both a value and an error. -/
structure Tool where
  name : String
  description : String := ""
  run : List (String × GoVal) → Option GoVal × Option String

/-- types.go `ModelResponse` (token usage omitted: no claim reads it). -/
structure ModelResponse where
  content : String
  toolCalls : List ToolCall := []
  reasoning : String := ""
  finished : Bool := false

/-- types.go `ModelProvider.Complete`: takes prompt, files, tool catalog and
history; returns a response or an error. -/
abbrev ModelFn := String → List FileInput → List Tool → List Message →
  Except String ModelResponse

/-- types.go `Artifact` (mime type omitted: never set by the core). -/
structure Artifact where
  typ : String
  content : GoVal
  metadata : List (String × GoVal)

/-- types.go `ExecutionStep` (durations, latencies, timestamps and token
usage omitted: no claim mentions them). A Go `nil` state delta is `[]`. -/
structure ExecutionStep where
  agentName : String
  action : String := ""
  input : GoVal := .vnil
  output : GoVal := .vnil
  error : String := ""
  toolCalls : List ToolCall := []
  stateDelta : StateMap := []

/-- types.go `Result` (aggregated metrics omitted). -/
structure Result where
  taskID : String
  success : Bool := false
  output : GoVal := .vnil
  artifacts : List Artifact := []
  metadata : List (String × GoVal) := []
  error : String := ""
  steps : List ExecutionStep := []

/-- The fields of types.go `Task` that the agents read or write
(`Config`, `StartedAt`, `CompletedAt` are only touched by the executor
and are kept in `Task` below). -/
structure TaskData where
  id : String := ""
  input : String := ""
  files : List FileInput := []
  params : List (String × GoVal) := []
  state : StateMap := []

/-- types.go `ExecutionConfig` (`Temperature float32` modelled abstractly as
an integer: the agents never read it, which is all any claim needs). -/
structure ExecConfig where
  maxIterations : Int := 0
  timeoutSeconds : Int := 0
  temperature : Int := 0
  enablePlan : Bool := false
  callbackURL : String := ""

/-- types.go `Task`: the agent-visible fields plus the execution config. -/
structure Task where
  data : TaskData
  config : Option ExecConfig := none

/-- llm_agent.go `LLMAgent` configuration (sub-agents are carried on the
`Agent.llm` constructor). `maxTurns` is the Go `int` turn budget, used only
as a non-negative count. -/
structure LLMAgentCfg where
  name : String := ""
  description : String := ""
  prompt : String := ""
  model : ModelFn
  tools : List Tool := []
  maxTurns : Nat := 0

/-- The closed set of agent kinds of the repository: the LLM reasoning loop
(llm_agent.go) and the Sequential/Parallel/Pipeline composites (agents.go). -/
inductive Agent where
  | llm (cfg : LLMAgentCfg) (subAgents : List Agent)
  | seq (name : String) (children : List Agent)
  | par (name : String) (children : List Agent)
  | pipe (name : String) (stages : List Agent)

/-- The `Name()` method of each agent kind. -/
def agentName : Agent → String
  | .llm cfg _ => cfg.name
  | .seq n _ => n
  | .par n _ => n
  | .pipe n _ => n

/-- llm_agent.go `NewLLMAgent`: a zero `MaxTurns` becomes the default 10. -/
def NewLLMAgent (cfg : LLMAgentCfg) (subs : List Agent) : Agent :=
  .llm { cfg with maxTurns := if cfg.maxTurns = 0 then 10 else cfg.maxTurns } subs

/-- llm_agent.go `injectState`: substitute `{key}` placeholders in the prompt
with the printed state values (iteration order refined to list order). -/
def injectState (prompt : String) (state : StateMap) : String :=
  state.foldl (fun p kv => p.replace ("\x7b" ++ kv.1 ++ "\x7d") (goSprint kv.2)) prompt

/-- llm_agent.go `findTool`: first tool with the requested name. -/
def findTool (tools : List Tool) (name : String) : Option Tool :=
  tools.find? (fun t => t.name == name)

/-- llm_agent.go lines 136-144: a successful, non-nil tool result updates the
task state — a map result merges its entries, any other value is stored
under `name ++ "_result"`. -/
def applyToolResult (state : StateMap) (toolName : String)
    (res : Option GoVal) (err : Option String) : StateMap :=
  match err, res with
  | none, some (.vmap entries) =>
      entries.foldl (fun st kv => stateSet st kv.1 kv.2) state
  | none, some v => stateSet state (toolName ++ "_result") v
  | _, _ => state

/-- Outcome of the per-turn tool loop (llm_agent.go lines 119-147):
`calls` is the mutated `resp.ToolCalls` slice, `stepCalls` the entries
appended to `step.ToolCalls`, `state` the updated working state. -/
structure ToolCallsOut where
  calls : List ToolCall
  stepCalls : List ToolCall
  state : StateMap

/-- llm_agent.go lines 119-147: resolve and execute the requested tool calls
sequentially. An unresolved name gets a per-call "tool not found" error and
`continue`s — which skips the `step.ToolCalls` append. A resolved call
records its result and error and is appended to `step.ToolCalls`. -/
def runToolCalls (tools : List Tool) (state : StateMap) :
    List ToolCall → ToolCallsOut
  | [] => ⟨[], [], state⟩
  | tc :: rest =>
    match findTool tools tc.name with
    | none =>
      let tc' := { tc with error := some ("tool not found: " ++ tc.name) }
      let out := runToolCalls tools state rest
      ⟨tc' :: out.calls, out.stepCalls, out.state⟩
    | some tool =>
      let (r, e) := tool.run tc.arguments
      let tc' := { tc with result := r, error := e }
      let out := runToolCalls tools (applyToolResult state tc.name r e) rest
      ⟨tc' :: out.calls, tc' :: out.stepCalls, out.state⟩

/-- llm_agent.go `formatToolCalls`. -/
def formatToolCalls (calls : List ToolCall) : String :=
  String.intercalate "\n"
    (calls.map (fun tc => "Calling: " ++ tc.name ++ "(" ++ goSprint (.vmap tc.arguments) ++ ")"))

/-- llm_agent.go `formatToolResults`. -/
def formatToolResults (calls : List ToolCall) : String :=
  String.intercalate "\n"
    (calls.map (fun tc =>
      match tc.error with
      | some e => tc.name ++ " failed: " ++ e
      | none =>
        tc.name ++ " result: " ++
          (match tc.result with
           | some v => goSprint v
           | none => "<nil>")))

/-- llm_agent.go `inferType`. -/
def inferType (key : String) (v : GoVal) : String :=
  match v with
  | .vstr _ =>
    if strContains (strToLower key) "image" then "image"
    else if strContains (strToLower key) "video" then "video"
    else "text"
  | _ => "unknown"

/-- llm_agent.go `extractArtifacts` (map iteration refined to list order). -/
def extractArtifacts (state : StateMap) : List Artifact :=
  (state.filter (fun kv =>
      strHasPre kv.1 "artifact_" || strHasSuf kv.1 "_content" || strHasSuf kv.1 "_output")).map
    (fun kv => { typ := inferType kv.1 kv.2, content := kv.2,
                 metadata := [("key", GoVal.vstr kv.1)] })

/-- An agent execution returns the Go pair `(result, error)` plus the task it
mutated in place. -/
abbrev ExecOut := Result × Option String × TaskData

/-- llm_agent.go lines 65-86: the initial conversation history — a system
message with the state-injected prompt and a user message carrying the task
input and its file parts. -/
def llmInitHistory (cfg : LLMAgentCfg) (task : TaskData) : List Message :=
  [{ role := "system", content := injectState cfg.prompt task.state },
   { role := "user", content := task.input,
     parts := task.files.map (fun f => { typ := f.typ, data := f.content }) }]

/-- llm_agent.go lines 191-203: the completion path of a turn — the response
content becomes the output, artifacts are extracted from working state. -/
def llmComplete (cfg : LLMAgentCfg) (task : TaskData) (resp : ModelResponse)
    (steps : List ExecutionStep) : ExecOut :=
  ({ taskID := task.id, success := true, output := .vstr resp.content,
     artifacts := extractArtifacts task.state,
     steps := steps ++ [{ agentName := cfg.name, action := "reasoning",
                            output := .vstr resp.content }] },
   none, task)

/-- agents.go lines 196-201: a stage output string is passed through,
any other value is `fmt.Sprint`ed. -/
def coerceOutput : GoVal → String
  | .vstr s => s
  | v => goSprint v

/-- agents.go lines 123-145 (merge phase of `ParallelAgent.Execute`): walk the
child results in index order; the first failure aborts with that child's
error, keeping only the steps/artifacts of earlier children; otherwise steps
and artifacts are concatenated, outputs are keyed by child name and the last
step's state delta is merged back into the parent task. Returns
(steps, artifacts, outputs, failure, task). -/
def mergeParResults :
    List Agent → List (Result × Option String) → TaskData →
    List ExecutionStep → List Artifact → List (String × GoVal) →
    List ExecutionStep × List Artifact × List (String × GoVal) ×
      Option (String × String) × TaskData
  | c :: cs, (r, e) :: rs, task, steps, arts, outputs =>
    match e with
    | some err =>
      (steps, arts, outputs, some (err, "agent " ++ agentName c ++ " failed: " ++ err), task)
    | none =>
      let task' :=
        match r.steps.getLast? with
        | some lastStep =>
          { task with state := lastStep.stateDelta.foldl (fun st kv => stateSet st kv.1 kv.2) task.state }
        | none => task
      mergeParResults cs rs task' (steps ++ r.steps) (arts ++ r.artifacts)
        (stateSet outputs (agentName c) r.output)
  | _, _, task, steps, arts, outputs => (steps, arts, outputs, none, task)

/-- How a child agent's `Execute` is invoked from inside a composite or a
delegation. The loops below take it as an explicit parameter so each loop is
plainly structurally recursive; `execAgent` ties the recursive knot below. -/
abbrev SubExec := Agent → TaskData → ExecOut

/-- llm_agent.go lines 166-189: the delegation scan — walk the sub-agents in
list order and run the first one whose (lowercased) name occurs in the
(lowercased) response text; its steps are spliced onto the trail and its
output/artifacts/success flag adopted verbatim, while its error propagates as
this agent's failure. If no sub-agent matches (or there are none), control
falls through to the completion path. -/
def execDeleg (f : SubExec) (cfg : LLMAgentCfg) (task : TaskData) (resp : ModelResponse)
    (steps : List ExecutionStep) : List Agent → ExecOut
  | [] => llmComplete cfg task resp steps
  | sub :: rest =>
    if strContains (strToLower resp.content) (strToLower (agentName sub)) then
      let delegStep : ExecutionStep :=
        { agentName := cfg.name, action := "delegate",
          output := .vstr ("Delegating to " ++ agentName sub) }
      let steps' := steps ++ [delegStep]
      match f sub task with
      | (_, some e, task') =>
        ({ taskID := task.id, error := "sub-agent failed: " ++ e,
           steps := steps' }, some e, task')
      | (subResult, none, task') =>
        ({ taskID := task.id, success := subResult.success,
           output := subResult.output, artifacts := subResult.artifacts,
           steps := steps' ++ subResult.steps }, none, task')
    else execDeleg f cfg task resp steps rest

/-- llm_agent.go lines 88-207: the turn loop. The `Nat` is the remaining turn
budget, `steps` the trail built so far. Each turn: call the model (an error
is fatal), else run tool calls and continue, else try delegation, else
complete; an exhausted budget fails with "max iterations reached". -/
def execLLMLoop (f : SubExec) (cfg : LLMAgentCfg) (subs : List Agent) :
    Nat → List Message → TaskData → List ExecutionStep → ExecOut
  | 0, _, task, steps =>
    ({ taskID := task.id, error := "max iterations reached", steps := steps },
     some "max iterations reached", task)
  | fuel + 1, history, task, steps =>
    match cfg.model task.input task.files cfg.tools history with
    | .error e =>
      ({ taskID := task.id, error := "LLM error: " ++ e,
         steps := steps ++ [{ agentName := cfg.name, error := e }] },
       some e, task)
    | .ok resp =>
      if resp.toolCalls.isEmpty then
        if strContains (strToLower resp.content) "delegate to" then
          execDeleg f cfg task resp steps subs
        else llmComplete cfg task resp steps
      else
        let out := runToolCalls cfg.tools task.state resp.toolCalls
        execLLMLoop f cfg subs fuel
          (history ++ [{ role := "assistant", content := formatToolCalls out.calls },
                       { role := "user", content := formatToolResults out.calls }])
          { task with state := out.state }
          (steps ++ [{ agentName := cfg.name, action := "tool_execution",
                       output := .vstr resp.content, toolCalls := out.stepCalls }])

/-- agents.go lines 37-63 (`SequentialAgent.Execute` loop): run the children
in order against the same task; a failure appends a synthetic error step and
aborts. Returns (steps, artifacts, last output, failure, task). -/
def execSeqGo (f : SubExec) :
    List Agent → TaskData → List ExecutionStep → List Artifact → GoVal →
    List ExecutionStep × List Artifact × GoVal × Option (String × String) × TaskData
  | [], task, steps, arts, out => (steps, arts, out, none, task)
  | c :: rest, task, steps, arts, out =>
    match f c task with
    | (_, some e, task') =>
      (steps ++ [{ agentName := agentName c, action := "execute", error := e }],
       arts, out, some (e, "agent " ++ agentName c ++ " failed: " ++ e), task')
    | (subResult, none, task') =>
      execSeqGo f rest task' (steps ++ subResult.steps) (arts ++ subResult.artifacts)
        subResult.output

/-- agents.go lines 104-121 (fork phase of `ParallelAgent.Execute`): each
child runs on its own shallow copy of the task (its state map freshly
copied), and the copies are discarded afterwards; results are collected by
child index. Concurrency is unobservable here because children act on
disjoint copies, so the join is modelled by running them in index order. -/
def execParGo (f : SubExec) : List Agent → TaskData → List (Result × Option String)
  | [], _ => []
  | c :: rest, task =>
    (match f c task with | (r, e, _) => (r, e)) :: execParGo f rest task

/-- agents.go lines 183-202 (`PipelineAgent.Execute` loop): each stage sees
the previous stage's coerced output as `task.Input` (written into the shared
task in place); a failure keeps only already-accumulated steps/artifacts.
Returns (steps, artifacts, current input, failure, task). -/
def execPipeGo (f : SubExec) :
    List Agent → TaskData → String → List ExecutionStep → List Artifact →
    List ExecutionStep × List Artifact × String × Option (String × String) × TaskData
  | [], task, currentInput, steps, arts => (steps, arts, currentInput, none, task)
  | stage :: rest, task, currentInput, steps, arts =>
    match f stage { task with input := currentInput } with
    | (_, some e, task') =>
      (steps, arts, currentInput,
       some (e, "stage " ++ agentName stage ++ " failed: " ++ e), task')
    | (subResult, none, task') =>
      execPipeGo f rest task' (coerceOutput subResult.output)
        (steps ++ subResult.steps) (arts ++ subResult.artifacts)

/-- The `Execute` dispatch on the agent kind, with a fuel bounding the
nesting depth of the agent tree. The fuel is a recursion device only:
`execAgent` always supplies `sizeOf a`, which is enough for the zero case to
be unreachable, and `execF_irrel` below shows the value is independent of
any sufficient fuel. -/
def execF : Nat → Agent → TaskData → ExecOut
  | 0, _, task => ({ taskID := task.id }, none, task)
  | fuel + 1, a, task =>
    match a with
    | .llm cfg subs =>
      execLLMLoop (execF fuel) cfg subs cfg.maxTurns (llmInitHistory cfg task) task []
    | .seq _ children =>
      match execSeqGo (execF fuel) children task [] [] .vnil with
      | (steps, arts, out, some (e, msg), task') =>
        ({ taskID := task.id, output := out, artifacts := arts, error := msg,
           steps := steps }, some e, task')
      | (steps, arts, out, none, task') =>
        ({ taskID := task.id, success := true, output := out, artifacts := arts,
           steps := steps }, none, task')
    | .par _ children =>
      match mergeParResults children (execParGo (execF fuel) children task) task [] [] [] with
      | (steps, arts, _, some (e, msg), task') =>
        ({ taskID := task.id, artifacts := arts, error := msg, steps := steps },
         some e, task')
      | (steps, arts, outputs, none, task') =>
        ({ taskID := task.id, success := true, output := .vmap outputs,
           artifacts := arts, steps := steps }, none, task')
    | .pipe _ stages =>
      match execPipeGo (execF fuel) stages task task.input [] [] with
      | (steps, arts, _, some (e, msg), task') =>
        ({ taskID := task.id, artifacts := arts, error := msg, steps := steps },
         some e, task')
      | (steps, arts, cur, none, task') =>
        ({ taskID := task.id, success := true, output := .vstr cur,
           artifacts := arts, steps := steps }, none, task')

mutual

/-- A computable size of an agent tree, used only as the fuel for `execF`. -/
def agentSize : Agent → Nat
  | .llm _ subs => 1 + agentSizeL subs
  | .seq _ cs => 1 + agentSizeL cs
  | .par _ cs => 1 + agentSizeL cs
  | .pipe _ cs => 1 + agentSizeL cs
termination_by a => (sizeOf a, 0)
decreasing_by
  all_goals first
    | (apply Prod.Lex.right; omega)
    | (apply Prod.Lex.left; simp +arith; done)

/-- Combined size of a list of agent trees. -/
def agentSizeL : List Agent → Nat
  | [] => 0
  | a :: rest => agentSize a + agentSizeL rest + 1
termination_by l => (sizeOf l, 0)
decreasing_by
  all_goals first
    | (apply Prod.Lex.right; omega)
    | (apply Prod.Lex.left; simp +arith; done)

end

/-- Agent sizes are positive. -/
theorem agentSize_pos (a : Agent) : 0 < agentSize a := by
  cases a <;> simp [agentSize]

/-- A member of a list is smaller than the list. -/
theorem agentSize_lt_of_mem {s : Agent} :
    ∀ {l : List Agent}, s ∈ l → agentSize s < agentSizeL l := by
  intro l
  induction l with
  | nil => intro h; exact absurd h (List.not_mem_nil s)
  | cons a rest ih =>
    intro h
    rcases List.mem_cons.mp h with rfl | h'
    · simp only [agentSizeL]; omega
    · have := ih h'
      simp only [agentSizeL]; omega

/-- The `Execute` method of each agent kind (llm_agent.go lines 57-208 and
agents.go), as a function from the agent and the task to the returned
`(Result, error)` pair and the task as mutated in place. -/
def execAgent (a : Agent) (t : TaskData) : ExecOut := execF (agentSize a) a t

/-- The delegation scan only invokes the executor on members of its list. -/
theorem execDeleg_congr (f g : SubExec) (cfg : LLMAgentCfg) (task : TaskData)
    (resp : ModelResponse) (steps : List ExecutionStep) :
    ∀ (remaining : List Agent), (∀ s ∈ remaining, ∀ u, f s u = g s u) →
      execDeleg f cfg task resp steps remaining =
        execDeleg g cfg task resp steps remaining := by
  intro remaining
  induction remaining with
  | nil => intro _; rfl
  | cons sub rest ih =>
    intro h
    simp only [execDeleg]
    rw [h sub (by simp) task, ih (fun s hs u => h s (by simp [hs]) u)]

/-- The turn loop only invokes the executor on its sub-agent list. -/
theorem execLLMLoop_congr (f g : SubExec) (cfg : LLMAgentCfg) (subs : List Agent)
    (h : ∀ s ∈ subs, ∀ u, f s u = g s u) :
    ∀ (fuel : Nat) (history : List Message) (task : TaskData)
      (steps : List ExecutionStep),
      execLLMLoop f cfg subs fuel history task steps =
        execLLMLoop g cfg subs fuel history task steps := by
  intro fuel
  induction fuel with
  | zero => intro history task steps; rfl
  | succ n ih =>
    intro history task steps
    simp only [execLLMLoop]
    rcases hm : cfg.model task.input task.files cfg.tools history with e | resp
    · simp only [hm]
    · simp only [hm]
      rw [execDeleg_congr f g cfg task resp steps subs h, ih]

/-- The Sequential loop only invokes the executor on its child list. -/
theorem execSeqGo_congr (f g : SubExec) :
    ∀ (children : List Agent), (∀ s ∈ children, ∀ u, f s u = g s u) →
      ∀ (task : TaskData) (steps : List ExecutionStep) (arts : List Artifact)
        (out : GoVal),
        execSeqGo f children task steps arts out =
          execSeqGo g children task steps arts out := by
  intro children
  induction children with
  | nil => intro _ task steps arts out; rfl
  | cons c rest ih =>
    intro h task steps arts out
    simp only [execSeqGo]
    rw [h c (by simp) task]
    rcases hg : g c task with ⟨r, _ | e, t'⟩
    · simp only [hg]
      exact ih (fun s hs u => h s (by simp [hs]) u) t' _ _ _
    · simp only [hg]

/-- The Parallel fork only invokes the executor on its child list. -/
theorem execParGo_congr (f g : SubExec) :
    ∀ (children : List Agent), (∀ s ∈ children, ∀ u, f s u = g s u) →
      ∀ (task : TaskData), execParGo f children task = execParGo g children task := by
  intro children
  induction children with
  | nil => intro _ task; rfl
  | cons c rest ih =>
    intro h task
    simp only [execParGo]
    rw [h c (by simp) task, ih (fun s hs u => h s (by simp [hs]) u)]

/-- The Pipeline loop only invokes the executor on its stage list. -/
theorem execPipeGo_congr (f g : SubExec) :
    ∀ (stages : List Agent), (∀ s ∈ stages, ∀ u, f s u = g s u) →
      ∀ (task : TaskData) (cur : String) (steps : List ExecutionStep)
        (arts : List Artifact),
        execPipeGo f stages task cur steps arts =
          execPipeGo g stages task cur steps arts := by
  intro stages
  induction stages with
  | nil => intro _ task cur steps arts; rfl
  | cons st rest ih =>
    intro h task cur steps arts
    simp only [execPipeGo]
    rw [h st (by simp) { task with input := cur }]
    rcases hg : g st { task with input := cur } with ⟨r, _ | e, t'⟩
    · simp only [hg]
      exact ih (fun s hs u => h s (by simp [hs]) u) t' _ _ _
    · simp only [hg]

/-- The fuelled dispatch is independent of the fuel as soon as it covers the
agent tree's size: the zero case is unreachable from `execAgent`. -/
theorem execF_irrel :
    ∀ (n m : Nat) (a : Agent) (t : TaskData),
      agentSize a ≤ n → agentSize a ≤ m → execF n a t = execF m a t := by
  intro n
  induction n with
  | zero =>
    intro m a t hn _
    have := agentSize_pos a
    omega
  | succ n ih =>
    intro m a t hn hm
    cases m with
    | zero =>
      have := agentSize_pos a
      omega
    | succ m' =>
      cases a with
      | llm cfg subs =>
        have hsz : agentSize (Agent.llm cfg subs) = 1 + agentSizeL subs := by
          simp [agentSize]
        simp only [execF]
        apply execLLMLoop_congr
        intro s hs u
        have h1 := agentSize_lt_of_mem hs
        exact ih m' s u (by omega) (by omega)
      | seq nm children =>
        have hsz : agentSize (Agent.seq nm children) = 1 + agentSizeL children := by
          simp [agentSize]
        simp only [execF]
        rw [execSeqGo_congr (execF n) (execF m') children
          (fun s hs u => ih m' s u
            (by have := agentSize_lt_of_mem hs; omega)
            (by have := agentSize_lt_of_mem hs; omega))]
      | par nm children =>
        have hsz : agentSize (Agent.par nm children) = 1 + agentSizeL children := by
          simp [agentSize]
        simp only [execF]
        rw [execParGo_congr (execF n) (execF m') children
          (fun s hs u => ih m' s u
            (by have := agentSize_lt_of_mem hs; omega)
            (by have := agentSize_lt_of_mem hs; omega))]
      | pipe nm stages =>
        have hsz : agentSize (Agent.pipe nm stages) = 1 + agentSizeL stages := by
          simp [agentSize]
        simp only [execF]
        rw [execPipeGo_congr (execF n) (execF m') stages
          (fun s hs u => ih m' s u
            (by have := agentSize_lt_of_mem hs; omega)
            (by have := agentSize_lt_of_mem hs; omega))]

/-- `Execute` of an LLM agent is the turn loop over its own budget, with
sub-agents executed by `execAgent` (llm_agent.go lines 57-207). -/
theorem execAgent_llm (cfg : LLMAgentCfg) (subs : List Agent) (t : TaskData) :
    execAgent (.llm cfg subs) t =
      execLLMLoop execAgent cfg subs cfg.maxTurns (llmInitHistory cfg t) t [] := by
  have hsz : agentSize (Agent.llm cfg subs) = agentSizeL subs + 1 := by
    simp [agentSize]; omega
  simp only [execAgent]
  rw [hsz]
  simp only [execF]
  apply execLLMLoop_congr
  intro s hs u
  have h1 := agentSize_lt_of_mem hs
  simp only [execAgent]
  exact execF_irrel _ _ s u (by omega) (by omega)

/-- `Execute` of a Sequential agent (agents.go lines 30-67). -/
theorem execAgent_seq (nm : String) (children : List Agent) (t : TaskData) :
    execAgent (.seq nm children) t =
      (match execSeqGo execAgent children t [] [] .vnil with
       | (steps, arts, out, some (e, msg), task') =>
         ({ taskID := t.id, output := out, artifacts := arts, error := msg,
            steps := steps }, some e, task')
       | (steps, arts, out, none, task') =>
         ({ taskID := t.id, success := true, output := out, artifacts := arts,
            steps := steps }, none, task')) := by
  have hsz : agentSize (Agent.seq nm children) = agentSizeL children + 1 := by
    simp [agentSize]; omega
  simp only [execAgent]
  rw [hsz]
  simp only [execF]
  rw [execSeqGo_congr _ execAgent children
    (fun s hs u => by
      have h1 := agentSize_lt_of_mem hs
      simp only [execAgent]
      exact execF_irrel _ _ s u (by omega) (by omega))]

/-- `Execute` of a Parallel agent (agents.go lines 89-150). -/
theorem execAgent_par (nm : String) (children : List Agent) (t : TaskData) :
    execAgent (.par nm children) t =
      (match mergeParResults children (execParGo execAgent children t) t [] [] [] with
       | (steps, arts, _, some (e, msg), task') =>
         ({ taskID := t.id, artifacts := arts, error := msg, steps := steps },
          some e, task')
       | (steps, arts, outputs, none, task') =>
         ({ taskID := t.id, success := true, output := .vmap outputs,
            artifacts := arts, steps := steps }, none, task')) := by
  have hsz : agentSize (Agent.par nm children) = agentSizeL children + 1 := by
    simp [agentSize]; omega
  simp only [execAgent]
  rw [hsz]
  simp only [execF]
  rw [execParGo_congr _ execAgent children
    (fun s hs u => by
      have h1 := agentSize_lt_of_mem hs
      simp only [execAgent]
      exact execF_irrel _ _ s u (by omega) (by omega))]

/-- `Execute` of a Pipeline agent (agents.go lines 173-207). -/
theorem execAgent_pipe (nm : String) (stages : List Agent) (t : TaskData) :
    execAgent (.pipe nm stages) t =
      (match execPipeGo execAgent stages t t.input [] [] with
       | (steps, arts, _, some (e, msg), task') =>
         ({ taskID := t.id, artifacts := arts, error := msg, steps := steps },
          some e, task')
       | (steps, arts, cur, none, task') =>
         ({ taskID := t.id, success := true, output := .vstr cur,
            artifacts := arts, steps := steps }, none, task')) := by
  have hsz : agentSize (Agent.pipe nm stages) = agentSizeL stages + 1 := by
    simp [agentSize]; omega
  simp only [execAgent]
  rw [hsz]
  simp only [execF]
  rw [execPipeGo_congr _ execAgent stages
    (fun s hs u => by
      have h1 := agentSize_lt_of_mem hs
      simp only [execAgent]
      exact execF_irrel _ _ s u (by omega) (by omega))]

/-- types.go `Agent.Execute` on a full task: agents read and write only the
`TaskData` component; the config rides along untouched (no agent code reads
`task.Config` — only the executor does, for its timeout). -/
def executeTask (a : Agent) (t : Task) : Result × Option String × Task :=
  match execAgent a t.data with
  | (r, e, d) => (r, e, { t with data := d })

/-- The `maxTurns` budget an agent will use (10 is never read for composite
agents; they have no turn budget). -/
def agentMaxTurns : Agent → Nat
  | .llm cfg _ => cfg.maxTurns
  | _ => 0

/-- state.go `JobStatus`. -/
inductive JobStatus where
  | pending
  | running
  | completed
  | failed
deriving DecidableEq

/-- state.go `Job`. -/
structure Job where
  task : Task
  result : Option Result := none
  status : JobStatus
  error : Option String := none

/-- state.go `Submit` (lines 124-154): build a fresh task whose working state
is seeded from the params, and enqueue a `pending` job. The generated UUID is
passed in as `taskID` (uuid is an external library). -/
def submitJob (taskID input : String) (params : List (String × GoVal))
    (config : Option ExecConfig) : Job :=
  { task := { data := { id := taskID, input := input, params := params,
                        state := params.foldl (fun st kv => stateSet st kv.1 kv.2) [] },
              config := config },
    status := .pending }

/-- state.go `executeJob` line 206: the worker first flips the job to
`running`. -/
def executeJobStart (job : Job) : Job := { job with status := .running }

/-- state.go `executeJob` lines 218-231: run the wrapped agent, record its
result and error, and set the terminal status — `failed` exactly when the
agent returned an error. (The timeout context is real-time behaviour and is
not modelled; it only changes *which* error the agent returns.) -/
def executeJobFinish (agent : Agent) (job : Job) : Job :=
  match execAgent agent job.task.data with
  | (r, e, d) =>
    { job with
      task := { job.task with data := d }, result := some r, error := e,
      status := if e.isSome then .failed else .completed }

/-- state.go `executeJob`: both status updates in order. -/
def executeJob (agent : Agent) (job : Job) : Job :=
  executeJobFinish agent (executeJobStart job)

/-- The successive status values a job takes when it is submitted and then
processed by a worker: as created by `Submit`, after `executeJob`'s first
update, and after its final update. -/
def jobStatusTrace (agent : Agent) (job : Job) : List JobStatus :=
  [job.status, (executeJobStart job).status,
   (executeJobFinish agent (executeJobStart job)).status]

/-- Modelled from the spec: "transitions are strictly
pending→running→{completed|failed}; no other transitions are valid;
terminal once completed or failed" — the allowed transition relation, to be
compared with the traces the code produces. -/
inductive SpecJobTransition : JobStatus → JobStatus → Prop where
  | start : SpecJobTransition .pending .running
  | complete : SpecJobTransition .running .completed
  | fail : SpecJobTransition .running .failed

end Gonostic

namespace Gonostic

/-! ## Concrete fixtures used by witnesses and counterexamples -/

/-- A model that always completes immediately with the given text. -/
def witDone (s : String) : ModelFn := fun _ _ _ _ => .ok { content := s }

/-- A model that always fails. -/
def witErr : ModelFn := fun _ _ _ _ => .error "boom"

/-- A model that always requests one call to a tool named "missing". -/
def witToolModel : ModelFn :=
  fun _ _ _ _ => .ok { content := "x", toolCalls := [{ name := "missing" }] }

/-- A concrete task. -/
def witTask : TaskData := { id := "t", input := "in" }

/-- A one-turn completing agent configuration named "a". -/
def witCfgA : LLMAgentCfg := { name := "a", model := witDone "helloA", maxTurns := 1 }

/-- A one-turn completing agent configuration named "bb". -/
def witCfgB : LLMAgentCfg := { name := "bb", model := witDone "outB", maxTurns := 1 }

/-- An agent configuration whose model always fails. -/
def witCfgE : LLMAgentCfg := { name := "e", model := witErr, maxTurns := 1 }

/-- An agent configuration that keeps requesting an unresolvable tool. -/
def witToolCfg : LLMAgentCfg := { name := "b", model := witToolModel, maxTurns := 2 }

/-! ## C1: turn-budget exhaustion -/

/-- If the model always answers with at least one tool call, every turn of the
loop takes the tool branch and appends exactly one step, so the loop exhausts
its fuel with the budget-exhaustion error and one step per turn. -/
theorem execLLMLoop_toolTurns (cfg : LLMAgentCfg) (subs : List Agent)
    (hm : ∀ p f tl h, ∃ r, cfg.model p f tl h = .ok r ∧ r.toolCalls ≠ []) :
    ∀ (fuel : Nat) (history : List Message) (task : TaskData)
      (steps : List ExecutionStep),
      (execLLMLoop execAgent cfg subs fuel history task steps).1.error = "max iterations reached" ∧
      (execLLMLoop execAgent cfg subs fuel history task steps).1.success = false ∧
      (execLLMLoop execAgent cfg subs fuel history task steps).2.1 = some "max iterations reached" ∧
      (execLLMLoop execAgent cfg subs fuel history task steps).1.steps.length = steps.length + fuel := by
  intro fuel
  induction fuel with
  | zero => intro history task steps; simp [execLLMLoop]
  | succ n ih =>
    intro history task steps
    obtain ⟨r, hr, hne⟩ := hm task.input task.files cfg.tools history
    have hempty : r.toolCalls.isEmpty = false := by
      cases h' : r.toolCalls with
      | nil => exact absurd h' hne
      | cons a l => rfl
    simp only [execLLMLoop, hr, hempty, Bool.false_eq_true, if_false]
    refine ⟨(ih _ _ _).1, (ih _ _ _).2.1, (ih _ _ _).2.2.1, ?_⟩
    have := (ih (history ++
        [{ role := "assistant",
           content := formatToolCalls (runToolCalls cfg.tools task.state r.toolCalls).calls },
         { role := "user",
           content := formatToolResults (runToolCalls cfg.tools task.state r.toolCalls).calls }])
      { task with state := (runToolCalls cfg.tools task.state r.toolCalls).state }
      (steps ++ [{ agentName := cfg.name, action := "tool_execution",
                   output := .vstr r.content,
                   toolCalls := (runToolCalls cfg.tools task.state r.toolCalls).stepCalls }])).2.2.2
    rw [this]
    simp
    omega

/-- Claim C1: if every turn of the reasoning loop requests tool calls (so the
loop neither completes nor delegates), the call returns a failed Result whose
`Error` is "max iterations reached", together with a non-nil Go error carrying
the same message, and the Steps list has length exactly the configured
max-turn budget. -/
theorem claim_C1 (cfg : LLMAgentCfg) (subs : List Agent) (task : TaskData)
    (hm : ∀ p f tl h, ∃ r, cfg.model p f tl h = .ok r ∧ r.toolCalls ≠ []) :
    (execAgent (.llm cfg subs) task).1.error = "max iterations reached" ∧
    (execAgent (.llm cfg subs) task).1.success = false ∧
    (execAgent (.llm cfg subs) task).2.1 = some "max iterations reached" ∧
    (execAgent (.llm cfg subs) task).1.steps.length = cfg.maxTurns := by
  have h := execLLMLoop_toolTurns cfg subs hm cfg.maxTurns (llmInitHistory cfg task) task []
  simpa [execAgent_llm] using h

/-- Witness for C1: a concrete two-turn agent whose model always requests a
tool call exhausts its budget with two recorded steps. -/
theorem claim_C1_witness :
    (execAgent (.llm witToolCfg []) witTask).1.error = "max iterations reached" ∧
    (execAgent (.llm witToolCfg []) witTask).1.success = false ∧
    (execAgent (.llm witToolCfg []) witTask).2.1 = some "max iterations reached" ∧
    (execAgent (.llm witToolCfg []) witTask).1.steps.length = 2 :=
  claim_C1 witToolCfg [] witTask
    (fun _ _ _ _ => ⟨{ content := "x", toolCalls := [{ name := "missing" }] }, rfl, by simp⟩)

/-! ## C2: steps carried by failing Results -/

/-- A delegating response naming the sub-agent "bob". -/
def witRespD : ModelResponse := { content := "please delegate to bob" }

/-- A parent configuration whose model always asks to delegate to "bob". -/
def witCfgD : LLMAgentCfg := { name := "d", model := fun _ _ _ _ => .ok witRespD, maxTurns := 3 }

/-- The result `witCfgA` produces on `witTask` (output "helloA"). -/
def witAResult : Result :=
  { taskID := "t", success := true, output := .vstr "helloA",
    steps := [{ agentName := "a", action := "reasoning", output := .vstr "helloA" }] }

/-- The failed result `witCfgE` produces on any task with id "t". -/
def witEResult : Result :=
  { taskID := "t", error := "LLM error: " ++ "boom",
    steps := [{ agentName := "e", error := "boom" }] }

/-- The delegation scan skips every leading sub-agent whose name does not
occur in the response text. -/
theorem execDeleg_skip (cfg : LLMAgentCfg) (task : TaskData) (resp : ModelResponse)
    (steps : List ExecutionStep) :
    ∀ (pre rest : List Agent),
      (∀ s ∈ pre, strContains (strToLower resp.content) (strToLower (agentName s)) = false) →
      execDeleg execAgent cfg task resp steps (pre ++ rest) = execDeleg execAgent cfg task resp steps rest := by
  intro pre
  induction pre with
  | nil => intro rest _; simp
  | cons a l ih =>
    intro rest h
    have ha := h a (by simp)
    have hrec := ih rest (fun s hs => h s (by simp [hs]))
    simp [execDeleg, ha, hrec]

/-- The pipeline loop over an appended stage list runs the first part and, if
it succeeded, continues with the second part from its final state. -/
theorem execPipeGo_append (l1 l2 : List Agent) :
    ∀ (t : TaskData) (cur : String) (steps : List ExecutionStep) (arts : List Artifact),
      execPipeGo f (l1 ++ l2) t cur steps arts =
        (match execPipeGo f l1 t cur steps arts with
         | (s, a, c, none, t') => execPipeGo f l2 t' c s a
         | out => out) := by
  induction l1 with
  | nil => intro t cur steps arts; simp [execPipeGo]
  | cons st l ih =>
    intro t cur steps arts
    rcases hx : f st { t with input := cur } with ⟨r, _ | e, t'⟩
    · simp only [List.cons_append, execPipeGo, hx]
      exact ih t' (coerceOutput r.output) (steps ++ r.steps) (arts ++ r.artifacts)
    · simp only [List.cons_append, execPipeGo, hx]

/-- The Sequential loop over an appended child list runs the first part and,
if it succeeded, continues with the second part from its final state. -/
theorem execSeqGo_append (l1 l2 : List Agent) :
    ∀ (t : TaskData) (steps : List ExecutionStep) (arts : List Artifact) (out : GoVal),
      execSeqGo f (l1 ++ l2) t steps arts out =
        (match execSeqGo f l1 t steps arts out with
         | (s, a, o, none, t') => execSeqGo f l2 t' s a o
         | other => other) := by
  induction l1 with
  | nil => intro t steps arts out; simp [execSeqGo]
  | cons c l ih =>
    intro t steps arts out
    rcases hx : f c t with ⟨r, _ | e, t'⟩
    · simp only [List.cons_append, execSeqGo, hx]
      exact ih t' (steps ++ r.steps) (arts ++ r.artifacts) r.output
    · simp only [List.cons_append, execSeqGo, hx]

/-- When a prefix of children all succeed and the next child fails, the
Parallel merge loop returns the prefix children's steps and artifacts in
index order together with the failing child's error — the failing child's
own steps and artifacts are not included. -/
theorem mergePar_prefix_fail (t : TaskData) (c : Agent) (cs : List Agent)
    (r : Result) (e : String) (tc : TaskData)
    (hc : execAgent c t = (r, some e, tc)) :
    ∀ (ds : List Agent) (u : TaskData) (steps : List ExecutionStep)
      (arts : List Artifact) (outputs : List (String × GoVal)),
      (∀ d ∈ ds, (execAgent d t).2.1 = none) →
      ∃ o' u',
        mergeParResults (ds ++ c :: cs) (execParGo execAgent (ds ++ c :: cs) t)
            u steps arts outputs =
          (steps ++ (ds.map (fun d => (execAgent d t).1.steps)).flatten,
           arts ++ (ds.map (fun d => (execAgent d t).1.artifacts)).flatten,
           o', some (e, "agent " ++ agentName c ++ " failed: " ++ e), u') := by
  intro ds
  induction ds with
  | nil =>
    intro u steps arts outputs _
    refine ⟨outputs, u, ?_⟩
    simp only [List.nil_append, execParGo]
    rw [hc]
    simp [mergeParResults]
  | cons d rest ih =>
    intro u steps arts outputs h
    have hd := h d (by simp)
    rcases hx : execAgent d t with ⟨rd, ed, td⟩
    rw [hx] at hd
    simp only at hd
    subst hd
    obtain ⟨o', u', hu⟩ := ih
      (match rd.steps.getLast? with
       | some lastStep =>
         { u with state := lastStep.stateDelta.foldl (fun st kv => stateSet st kv.1 kv.2) u.state }
       | none => u)
      (steps ++ rd.steps) (arts ++ rd.artifacts)
      (stateSet outputs (agentName d) rd.output)
      (fun d' h' => h d' (by simp [h']))
    refine ⟨o', u', ?_⟩
    simp only [List.cons_append, execParGo]
    rw [hx]
    simp only [mergeParResults, List.append_eq]
    rw [hu]
    simp [hx, List.append_assoc]

/-- Claim C2 (amended): on failure, a Result keeps the steps of the children
or turns that completed before the failure, but the failing child's own
internally recorded steps are dropped — Pipeline and Parallel return only the
completed prefix's steps and artifacts, Sequential adds a single synthetic
error step naming the failing child, the reasoning loop appends the step of
the turn whose model call failed, and a failed delegated sub-agent
contributes only the parent's delegate step, never its own trail. -/
theorem claim_C2 :
    (∀ (n : String) (ds cs : List Agent) (c : Agent) (t : TaskData)
       (s1 : List ExecutionStep) (a1 : List Artifact) (cur1 : String) (t1 : TaskData)
       r e t',
       execPipeGo execAgent ds t t.input [] [] = (s1, a1, cur1, none, t1) →
       execAgent c { t1 with input := cur1 } = (r, some e, t') →
       execAgent (.pipe n (ds ++ c :: cs)) t =
         ({ taskID := t.id, artifacts := a1,
            error := "stage " ++ agentName c ++ " failed: " ++ e,
            steps := s1 }, some e, t')) ∧
    (∀ (n : String) (ds cs : List Agent) (c : Agent) (t : TaskData)
       (s1 : List ExecutionStep) (a1 : List Artifact) (o1 : GoVal) (t1 : TaskData)
       r e t',
       execSeqGo execAgent ds t [] [] .vnil = (s1, a1, o1, none, t1) →
       execAgent c t1 = (r, some e, t') →
       execAgent (.seq n (ds ++ c :: cs)) t =
         ({ taskID := t.id, output := o1, artifacts := a1,
            error := "agent " ++ agentName c ++ " failed: " ++ e,
            steps := s1 ++ [{ agentName := agentName c, action := "execute", error := e }] },
          some e, t')) ∧
    (∀ (n : String) (ds cs : List Agent) (c : Agent) (t : TaskData) r e t',
       (∀ d ∈ ds, (execAgent d t).2.1 = none) →
       execAgent c t = (r, some e, t') →
       (execAgent (.par n (ds ++ c :: cs)) t).1.steps =
           (ds.map (fun d => (execAgent d t).1.steps)).flatten ∧
       (execAgent (.par n (ds ++ c :: cs)) t).1.artifacts =
           (ds.map (fun d => (execAgent d t).1.artifacts)).flatten ∧
       (execAgent (.par n (ds ++ c :: cs)) t).1.error =
           "agent " ++ agentName c ++ " failed: " ++ e ∧
       (execAgent (.par n (ds ++ c :: cs)) t).1.success = false ∧
       (execAgent (.par n (ds ++ c :: cs)) t).2.1 = some e) ∧
    (∀ (cfg : LLMAgentCfg) (subs : List Agent) (fuel : Nat) (history : List Message)
       (task : TaskData) (steps : List ExecutionStep) e,
       cfg.model task.input task.files cfg.tools history = .error e →
       (execLLMLoop execAgent cfg subs (fuel + 1) history task steps).1.steps =
         steps ++ [{ agentName := cfg.name, error := e }]) ∧
    (∀ (cfg : LLMAgentCfg) (task : TaskData) (resp : ModelResponse)
       (steps : List ExecutionStep) (pre post : List Agent) (sub : Agent)
       (fuel : Nat) (history : List Message) r e t',
       cfg.model task.input task.files cfg.tools history = .ok resp →
       resp.toolCalls = [] →
       strContains (strToLower resp.content) "delegate to" = true →
       (∀ s ∈ pre, strContains (strToLower resp.content) (strToLower (agentName s)) = false) →
       strContains (strToLower resp.content) (strToLower (agentName sub)) = true →
       execAgent sub task = (r, some e, t') →
       execLLMLoop execAgent cfg (pre ++ sub :: post) (fuel + 1) history task steps =
         ({ taskID := task.id, error := "sub-agent failed: " ++ e,
            steps := steps ++ [{ agentName := cfg.name, action := "delegate",
                                 output := .vstr ("Delegating to " ++ agentName sub) }] },
          some e, t')) := by
  refine ⟨?_, ?_, ?_, ?_, ?_⟩
  · intro n ds cs c t s1 a1 cur1 t1 r e t' h1 h2
    have hrun : execPipeGo execAgent (ds ++ c :: cs) t t.input [] [] =
        (s1, a1, cur1, some (e, "stage " ++ agentName c ++ " failed: " ++ e), t') := by
      rw [execPipeGo_append, h1]
      simp only [execPipeGo, h2]
    rw [execAgent_pipe]
    simp only [hrun]
  · intro n ds cs c t s1 a1 o1 t1 r e t' h1 h2
    have hrun : execSeqGo execAgent (ds ++ c :: cs) t [] [] .vnil =
        (s1 ++ [{ agentName := agentName c, action := "execute", error := e }], a1, o1,
         some (e, "agent " ++ agentName c ++ " failed: " ++ e), t') := by
      rw [execSeqGo_append, h1]
      simp only [execSeqGo, h2]
    rw [execAgent_seq]
    simp only [hrun]
  · intro n ds cs c t r e t' hds hc
    obtain ⟨o', u', hm⟩ := mergePar_prefix_fail t c cs r e t' hc ds t [] [] [] hds
    refine ⟨?_, ?_, ?_, ?_, ?_⟩ <;>
      · rw [execAgent_par]
        simp only [hm]
        try simp
  · intro cfg subs fuel history task steps e h
    simp only [execLLMLoop, h]
  · intro cfg task resp steps pre post sub fuel history r e t' hm hempty hphrase hpre hsub hrun
    simp only [execLLMLoop, hm, hempty, List.isEmpty_nil, hphrase, if_true]
    rw [execDeleg_skip cfg task resp steps pre (sub :: post) hpre]
    simp only [execDeleg, hsub, if_true, hrun]

/-- Counterexample for C2 as stated: a Pipeline whose single stage fails
returns a Result with an empty Steps list even though the failing stage's own
execution recorded one step — the failing child's steps are not carried. -/
theorem claim_C2_cex :
    (execAgent (.pipe "p" [.llm witCfgE []]) witTask).2.1 = some "boom" ∧
    (execAgent (.pipe "p" [.llm witCfgE []]) witTask).1.steps = [] ∧
    (execAgent (.llm witCfgE []) witTask).1.steps.length = 1 := by
  refine ⟨?_, ?_, ?_⟩ <;>
    simp [execAgent_llm, execAgent_seq, execAgent_par, execAgent_pipe, execPipeGo, execLLMLoop, witCfgE, witErr, witTask]

/-- Witness for the amended C2: after a successfully completed first stage
"a", a failing second child "e" leaves a Pipeline result carrying only the
first stage's step, a Sequential result carrying it plus the synthetic error
step, and a failed delegated sub-agent leaves only the delegate step. -/
theorem claim_C2_witness :
    (execAgent (.pipe "pw" [.llm witCfgA [], .llm witCfgE []]) witTask =
       ({ taskID := "t", artifacts := [],
          error := "stage " ++ agentName (.llm witCfgE []) ++ " failed: " ++ "boom",
          steps := witAResult.steps }, some "boom", { witTask with input := "helloA" })) ∧
    (execAgent (.seq "sw" [.llm witCfgA [], .llm witCfgE []]) witTask =
       ({ taskID := "t", output := .vstr "helloA", artifacts := [],
          error := "agent " ++ agentName (.llm witCfgE []) ++ " failed: " ++ "boom",
          steps := witAResult.steps ++
            [{ agentName := agentName (.llm witCfgE []), action := "execute",
               error := "boom" }] }, some "boom", witTask)) ∧
    ((execAgent (.par "qw" [.llm witCfgA [], .llm witCfgE []]) witTask).1.steps =
       ([(.llm witCfgA [] : Agent)].map (fun d => (execAgent d witTask).1.steps)).flatten ∧
     (execAgent (.par "qw" [.llm witCfgA [], .llm witCfgE []]) witTask).1.artifacts =
       ([(.llm witCfgA [] : Agent)].map (fun d => (execAgent d witTask).1.artifacts)).flatten ∧
     (execAgent (.par "qw" [.llm witCfgA [], .llm witCfgE []]) witTask).1.error =
       "agent " ++ agentName (.llm witCfgE []) ++ " failed: " ++ "boom" ∧
     (execAgent (.par "qw" [.llm witCfgA [], .llm witCfgE []]) witTask).1.success = false ∧
     (execAgent (.par "qw" [.llm witCfgA [], .llm witCfgE []]) witTask).2.1 = some "boom") ∧
    (execLLMLoop execAgent witCfgD [.llm witCfgE []] 1 [] witTask [] =
       ({ taskID := "t", error := "sub-agent failed: " ++ "boom",
          steps := [{ agentName := witCfgD.name, action := "delegate",
                      output := .vstr ("Delegating to " ++ agentName (.llm witCfgE [])) }] },
        some "boom", witTask)) := by
  have hA : execAgent (.llm witCfgA []) witTask = (witAResult, none, witTask) := by
    simp [execAgent_llm, execLLMLoop, witCfgA, witDone, witTask, llmComplete,
          strContains, strToLower, listHasSub, extractArtifacts, witAResult]
  have hE : ∀ (u : TaskData), u.id = "t" →
      execAgent (.llm witCfgE []) u = (witEResult, some "boom", u) := by
    intro u hu
    simp [execAgent_llm, execLLMLoop, witCfgE, witErr, witEResult, hu]
  have h1p : execPipeGo execAgent [.llm witCfgA []] witTask witTask.input [] [] =
      (witAResult.steps, [], "helloA", none, witTask) := by
    have ht : ({ witTask with input := witTask.input } : TaskData) = witTask := rfl
    simp only [execPipeGo, ht, hA]
    simp [execPipeGo, coerceOutput, witAResult]
  have h2p : execAgent (.llm witCfgE []) { witTask with input := "helloA" } =
      (witEResult, some "boom", { witTask with input := "helloA" }) :=
    hE { witTask with input := "helloA" } rfl
  have h1s : execSeqGo execAgent [.llm witCfgA []] witTask [] [] .vnil =
      (witAResult.steps, [], .vstr "helloA", none, witTask) := by
    simp only [execSeqGo, hA]
    simp [execSeqGo, witAResult]
  have h2s : execAgent (.llm witCfgE []) witTask = (witEResult, some "boom", witTask) :=
    hE witTask rfl
  have hds : ∀ d ∈ [(.llm witCfgA [] : Agent)], (execAgent d witTask).2.1 = none := by
    intro d hd
    simp only [List.mem_singleton] at hd
    subst hd
    rw [hA]
  have hdm : witCfgD.model witTask.input witTask.files witCfgD.tools [] = .ok witRespD := rfl
  have hpre : ∀ s ∈ ([] : List Agent),
      strContains (strToLower witRespD.content) (strToLower (agentName s)) = false := by
    intro s hs
    exact absurd hs (List.not_mem_nil s)
  have hsub : strContains (strToLower witRespD.content)
      (strToLower (agentName (.llm witCfgE []))) = true := rfl
  refine ⟨?_, ?_, ?_, ?_⟩
  · exact claim_C2.1 "pw" [.llm witCfgA []] [] (.llm witCfgE []) witTask
      witAResult.steps [] "helloA" witTask witEResult "boom"
      { witTask with input := "helloA" } h1p h2p
  · exact claim_C2.2.1 "sw" [.llm witCfgA []] [] (.llm witCfgE []) witTask
      witAResult.steps [] (.vstr "helloA") witTask witEResult "boom" witTask h1s h2s
  · exact claim_C2.2.2.1 "qw" [.llm witCfgA []] [] (.llm witCfgE []) witTask
      witEResult "boom" witTask hds h2s
  · exact claim_C2.2.2.2.2 witCfgD witTask witRespD [] [] [] (.llm witCfgE [])
      0 [] witEResult "boom" witTask hdm rfl rfl hpre hsub h2s

/-! ## C3: per-turn tool-call handling -/

/-- A one-turn agent configuration requesting an unresolvable tool. -/
def witToolCfg1 : LLMAgentCfg := { name := "b1", model := witToolModel, maxTurns := 1 }

/-- A tool error leaves the working state unchanged. -/
theorem applyToolResult_err (st : StateMap) (n : String) (r : Option GoVal) (e : String) :
    applyToolResult st n r (some e) = st := by
  rcases r with _ | v
  · rfl
  · cases v <;> rfl

/-- Claim C3 (amended): tool calls are resolved and executed sequentially in
the order requested; an unresolved name gets a per-call "tool not found"
error and a failing execution records its own error, neither aborting the
turn nor skipping later calls — but the step's ToolCalls list carries an
entry only for each call whose name resolved to a configured tool; unresolved
calls appear (with their error) only on the response's call list. -/
theorem claim_C3 :
    (∀ (tools : List Tool) (st : StateMap) (calls : List ToolCall),
       (runToolCalls tools st calls).calls.map (fun c => c.name) =
         calls.map (fun c => c.name)) ∧
    (∀ (tools : List Tool) (st : StateMap) (tc : ToolCall) (rest : List ToolCall),
       findTool tools tc.name = none →
       runToolCalls tools st (tc :: rest) =
         ⟨{ tc with error := some ("tool not found: " ++ tc.name) } ::
            (runToolCalls tools st rest).calls,
          (runToolCalls tools st rest).stepCalls,
          (runToolCalls tools st rest).state⟩) ∧
    (∀ (tools : List Tool) (st : StateMap) (tc : ToolCall) (rest : List ToolCall)
       (tool : Tool) (r : Option GoVal) (e : String),
       findTool tools tc.name = some tool →
       tool.run tc.arguments = (r, some e) →
       runToolCalls tools st (tc :: rest) =
         ⟨{ tc with result := r, error := some e } :: (runToolCalls tools st rest).calls,
          { tc with result := r, error := some e } :: (runToolCalls tools st rest).stepCalls,
          (runToolCalls tools st rest).state⟩) ∧
    (∀ (tools : List Tool) (st : StateMap) (calls : List ToolCall),
       (runToolCalls tools st calls).stepCalls =
         (runToolCalls tools st calls).calls.filter (fun c => (findTool tools c.name).isSome)) := by
  refine ⟨?_, ?_, ?_, ?_⟩
  · intro tools st calls
    induction calls generalizing st with
    | nil => simp [runToolCalls]
    | cons tc rest ih =>
      rcases h : findTool tools tc.name with _ | tool
      · simp [runToolCalls, h, ih]
      · rcases hr : tool.run tc.arguments with ⟨r, e⟩
        simp [runToolCalls, h, hr, ih]
  · intro tools st tc rest h
    simp [runToolCalls, h]
  · intro tools st tc rest tool r e h hr
    simp only [runToolCalls, h, hr]
    rw [applyToolResult_err]
  · intro tools st calls
    induction calls generalizing st with
    | nil => simp [runToolCalls]
    | cons tc rest ih =>
      rcases h : findTool tools tc.name with _ | tool
      · simp [runToolCalls, h, ih]
      · rcases hr : tool.run tc.arguments with ⟨r, e⟩
        simp [runToolCalls, h, hr, ih]

/-- Counterexample for C3 as stated: a turn whose response requests exactly
one tool call naming no configured tool records a step whose ToolCalls list
is empty, not one entry per requested call. -/
theorem claim_C3_cex :
    ({ content := "x", toolCalls := [{ name := "missing" }] } : ModelResponse).toolCalls.length = 1 ∧
    (execAgent (.llm witToolCfg1 []) witTask).1.steps.map (fun s => s.toolCalls.length) = [0] := by
  constructor
  · rfl
  · simp [execAgent_llm, execAgent_seq, execAgent_par, execAgent_pipe, execLLMLoop, witToolCfg1, witToolModel, witTask, runToolCalls, findTool]

/-- Witness for the amended C3 at a concrete unresolved call. -/
theorem claim_C3_witness :
    runToolCalls [] [] [{ name := "missing" }] =
      ⟨[{ name := "missing", error := some ("tool not found: " ++ "missing") }], [], []⟩ := by
  have h := claim_C3.2.1 [] [] { name := "missing" } [] rfl
  simpa [runToolCalls] using h


/-! ## C4: delegation to sub-agents -/

/-- Claim C4: in a turn with no tool calls whose text contains the delegation
phrase, the first sub-agent (in child-list order) whose lowercased name is
contained in the lowercased response text is executed with the same task; its
steps are spliced after this agent's own trail, its output/artifacts/success
flag are adopted verbatim, and a sub-agent error propagates as this agent's
failure. -/
theorem claim_C4 (cfg : LLMAgentCfg) (task : TaskData) (resp : ModelResponse)
    (steps : List ExecutionStep) (pre post : List Agent) (sub : Agent)
    (subR : Result) (se : Option String) (task' : TaskData)
    (hpre : ∀ s ∈ pre, strContains (strToLower resp.content) (strToLower (agentName s)) = false)
    (hsub : strContains (strToLower resp.content) (strToLower (agentName sub)) = true)
    (hrun : execAgent sub task = (subR, se, task')) :
    (∀ (fuel : Nat) (history : List Message),
       cfg.model task.input task.files cfg.tools history = .ok resp →
       resp.toolCalls = [] →
       strContains (strToLower resp.content) "delegate to" = true →
       execLLMLoop execAgent cfg (pre ++ sub :: post) (fuel + 1) history task steps =
         execDeleg execAgent cfg task resp steps (pre ++ sub :: post)) ∧
    (se = none →
       execDeleg execAgent cfg task resp steps (pre ++ sub :: post) =
         ({ taskID := task.id, success := subR.success, output := subR.output,
            artifacts := subR.artifacts,
            steps := steps ++ [{ agentName := cfg.name, action := "delegate",
                                 output := .vstr ("Delegating to " ++ agentName sub) }] ++
              subR.steps }, none, task')) ∧
    (∀ e, se = some e →
       execDeleg execAgent cfg task resp steps (pre ++ sub :: post) =
         ({ taskID := task.id, error := "sub-agent failed: " ++ e,
            steps := steps ++ [{ agentName := cfg.name, action := "delegate",
                                 output := .vstr ("Delegating to " ++ agentName sub) }] },
          some e, task')) := by
  refine ⟨?_, ?_, ?_⟩
  · intro fuel history hm hempty hphrase
    simp only [execLLMLoop, hm, hempty, List.isEmpty_nil, hphrase, if_true]
  · intro hse
    rw [hse] at hrun
    rw [execDeleg_skip cfg task resp steps pre (sub :: post) hpre]
    simp only [execDeleg, hsub, if_true, hrun]
  · intro e hse
    rw [hse] at hrun
    rw [execDeleg_skip cfg task resp steps pre (sub :: post) hpre]
    simp only [execDeleg, hsub, if_true, hrun]

/-- The sub-agent "bob": completes in one turn with output "bobout". -/
def witBob : Agent := .llm { name := "bob", model := witDone "bobout", maxTurns := 1 } []

/-- The result "bob" produces on `witTask`. -/
def witBobResult : Result :=
  { taskID := "t", success := true, output := .vstr "bobout",
    steps := [{ agentName := "bob", action := "reasoning", output := .vstr "bobout" }] }

/-- Witness for C4: with a non-matching sub-agent "bb" listed first, the scan
delegates to "bob" and adopts its result. -/
theorem claim_C4_witness :
    execDeleg execAgent witCfgD witTask witRespD [] [.llm witCfgB [], witBob] =
      ({ taskID := witTask.id, success := witBobResult.success, output := witBobResult.output,
         artifacts := witBobResult.artifacts,
         steps := [] ++ [{ agentName := witCfgD.name, action := "delegate",
                           output := .vstr ("Delegating to " ++ agentName witBob) }] ++
           witBobResult.steps }, none, witTask) := by
  have hpre : ∀ s ∈ [(.llm witCfgB [] : Agent)],
      strContains (strToLower witRespD.content) (strToLower (agentName s)) = false := by
    intro s hs
    simp only [List.mem_singleton] at hs
    subst hs
    rfl
  have hsub : strContains (strToLower witRespD.content) (strToLower (agentName witBob)) = true := rfl
  have hrun : execAgent witBob witTask = (witBobResult, none, witTask) := by
    simp [execAgent_llm, execAgent_seq, execAgent_par, execAgent_pipe, execLLMLoop, witBob, witDone, witTask, llmComplete, strContains,
          strToLower, listHasSub, extractArtifacts, witBobResult]
  exact (claim_C4 witCfgD witTask witRespD [] [.llm witCfgB []] [] witBob witBobResult none
    witTask hpre hsub hrun).2.1 rfl


/-! ## C5: ParallelAgent output mapping and fail-fast -/

/-- Head insertion wins on its own key. -/
theorem stateGet_stateSet_self (m : StateMap) (k : String) (v : GoVal) :
    stateGet (stateSet m k v) k = some v := by
  simp [stateGet, stateSet, List.find?]

/-- The filter inside `stateSet` does not disturb lookups of other keys. -/
theorem find?_pred_ne (k k' : String) (h : k' ≠ k) (m : StateMap) :
    List.find? (fun a => !decide (a.1 = k) && decide (a.1 = k')) m =
      List.find? (fun a => a.1 == k') m := by
  induction m with
  | nil => rfl
  | cons e l ih =>
    rw [List.find?_cons, List.find?_cons]
    by_cases he : e.1 = k'
    · have h1 : (!decide (e.1 = k) && decide (e.1 = k')) = true := by simp [he, h]
      have h2 : (e.1 == k') = true := beq_iff_eq.mpr he
      rw [h1, h2]
    · have h1 : (!decide (e.1 = k) && decide (e.1 = k')) = false := by simp [he]
      have h2 : (e.1 == k') = false := beq_eq_false_iff_ne.mpr he
      rw [h1, h2, ih]

/-- Map assignment leaves other keys unchanged. -/
theorem stateGet_stateSet_ne (m : StateMap) (k : String) (v : GoVal) (k' : String)
    (h : k' ≠ k) : stateGet (stateSet m k v) k' = stateGet m k' := by
  have hk : (k == k') = false := beq_eq_false_iff_ne.mpr (fun hh => h hh.symm)
  simp only [stateGet, stateSet, hk]
  rw [List.find?_cons]
  simp only [hk]
  rw [show (List.filter (fun e => decide (e.1 ≠ k)) m).find? (fun e => e.1 == k') =
      List.find? (fun a => !decide (a.1 = k) && decide (a.1 = k')) m from by
    simp, find?_pred_ne k k' h m]

/-- The outputs map the merge loop accumulates: each child's name bound to
its output, in index order. -/
def parOutputsAux (t : TaskData) : List Agent → List (String × GoVal) → List (String × GoVal)
  | [], m => m
  | c :: cs, m => parOutputsAux t cs (stateSet m (agentName c) (execAgent c t).1.output)

/-- Keys named by no child are untouched by the outputs accumulation. -/
theorem parOutputsAux_notin (t : TaskData) :
    ∀ (children : List Agent) (m : List (String × GoVal)) (k : String),
      (∀ c ∈ children, agentName c ≠ k) →
      stateGet (parOutputsAux t children m) k = stateGet m k := by
  intro children
  induction children with
  | nil => intro m k _; rfl
  | cons c cs ih =>
    intro m k h
    have hc := h c (by simp)
    rw [parOutputsAux, ih _ k (fun c' h' => h c' (by simp [h']))]
    exact stateGet_stateSet_ne m (agentName c) _ k (Ne.symm hc)

/-- With pairwise-distinct child names, each child's key holds that child's
output. -/
theorem parOutputsAux_get (t : TaskData) :
    ∀ (children : List Agent) (m : List (String × GoVal)) (c : Agent),
      c ∈ children → (children.map agentName).Nodup →
      stateGet (parOutputsAux t children m) (agentName c) =
        some (execAgent c t).1.output := by
  intro children
  induction children with
  | nil => intro m c hc _; exact absurd hc (List.not_mem_nil c)
  | cons c0 cs ih =>
    intro m c hc hnd
    rcases List.mem_cons.mp hc with rfl | hmem
    · have hnotin : ∀ c' ∈ cs, agentName c' ≠ agentName c := by
        intro c' hc' heq
        exact (List.nodup_cons.mp (by simpa using hnd)).1 (heq ▸ List.mem_map_of_mem agentName hc')
      rw [parOutputsAux, parOutputsAux_notin t cs _ _ hnotin]
      exact stateGet_stateSet_self m (agentName c) _
    · rw [parOutputsAux]
      exact ih _ c hmem (by simpa using (List.nodup_cons.mp (by simpa using hnd)).2)

/-- When every child succeeds, the merge loop concatenates steps and
artifacts in index order, accumulates the outputs map, and reports no
failure. -/
theorem mergePar_ok (t : TaskData) :
    ∀ (children : List Agent) (u : TaskData) (steps : List ExecutionStep)
      (arts : List Artifact) (outputs : List (String × GoVal)),
      (∀ c ∈ children, (execAgent c t).2.1 = none) →
      ∃ u', mergeParResults children (execParGo execAgent children t) u steps arts outputs =
        (steps ++ (children.map (fun c => (execAgent c t).1.steps)).flatten,
         arts ++ (children.map (fun c => (execAgent c t).1.artifacts)).flatten,
         parOutputsAux t children outputs, none, u') := by
  intro children
  induction children with
  | nil =>
    intro u steps arts outputs _
    exact ⟨u, by simp [execParGo, mergeParResults, parOutputsAux]⟩
  | cons c cs ih =>
    intro u steps arts outputs h
    have hc := h c (by simp)
    rcases hx : execAgent c t with ⟨r, e, t'⟩
    rw [hx] at hc
    simp only at hc
    subst hc
    obtain ⟨u', hu⟩ := ih
      (match r.steps.getLast? with
       | some lastStep =>
         { u with state := lastStep.stateDelta.foldl (fun st kv => stateSet st kv.1 kv.2) u.state }
       | none => u)
      (steps ++ r.steps) (arts ++ r.artifacts)
      (stateSet outputs (agentName c) r.output)
      (fun c' h' => h c' (by simp [h']))
    refine ⟨u', ?_⟩
    simp only [execParGo]
    rw [hx]
    simp only [mergeParResults]
    rw [hu]
    simp [parOutputsAux, hx, List.append_assoc]

/-- If some child fails, the merge loop reports the first failure it meets. -/
theorem mergePar_fail (t : TaskData) :
    ∀ (children : List Agent) (u : TaskData) (steps : List ExecutionStep)
      (arts : List Artifact) (outputs : List (String × GoVal)),
      (∃ c ∈ children, (execAgent c t).2.1 ≠ none) →
      ∃ e msg u' steps' arts' outs',
        mergeParResults children (execParGo execAgent children t) u steps arts outputs =
          (steps', arts', outs', some (e, msg), u') := by
  intro children
  induction children with
  | nil => intro u steps arts outputs h; simp at h
  | cons c cs ih =>
    intro u steps arts outputs h
    rcases hx : execAgent c t with ⟨r, e, t'⟩
    cases e with
    | some err =>
      refine ⟨err, "agent " ++ agentName c ++ " failed: " ++ err, u, steps, arts, outputs, ?_⟩
      simp only [execParGo]
      rw [hx]
      simp only [mergeParResults]
    | none =>
      have hcs : ∃ c' ∈ cs, (execAgent c' t).2.1 ≠ none := by
        rcases h with ⟨c', hc', hne⟩
        rcases List.mem_cons.mp hc' with rfl | hmem
        · rw [hx] at hne; simp at hne
        · exact ⟨c', hmem, hne⟩
      obtain ⟨e', msg, u', s', a', o', hm⟩ := ih
        (match r.steps.getLast? with
         | some lastStep =>
           { u with state := lastStep.stateDelta.foldl (fun st kv => stateSet st kv.1 kv.2) u.state }
         | none => u)
        (steps ++ r.steps) (arts ++ r.artifacts)
        (stateSet outputs (agentName c) r.output) hcs
      refine ⟨e', msg, u', s', a', o', ?_⟩
      simp only [execParGo]
      rw [hx]
      simp only [mergeParResults]
      exact hm

/-- Claim C5 (amended): when every child of a Parallel agent succeeds and the
child names are pairwise distinct, the Result succeeds with an output mapping
binding exactly the child names, each to that child's output, and child steps
and artifacts concatenated in index order; if any child fails, the whole
execution returns a failed Result and a non-nil error. (With duplicate child
names, a later child's output overwrites the earlier one's entry.) -/
theorem claim_C5 (n : String) (children : List Agent) (t : TaskData) :
    ((children.map agentName).Nodup →
     (∀ c ∈ children, (execAgent c t).2.1 = none) →
     (execAgent (.par n children) t).1.success = true ∧
     (execAgent (.par n children) t).2.1 = none ∧
     (∃ outputs, (execAgent (.par n children) t).1.output = .vmap outputs ∧
        (∀ c ∈ children, stateGet outputs (agentName c) = some (execAgent c t).1.output) ∧
        (∀ k, (∀ c ∈ children, agentName c ≠ k) → stateGet outputs k = none)) ∧
     (execAgent (.par n children) t).1.steps =
       (children.map (fun c => (execAgent c t).1.steps)).flatten ∧
     (execAgent (.par n children) t).1.artifacts =
       (children.map (fun c => (execAgent c t).1.artifacts)).flatten) ∧
    ((∃ c ∈ children, (execAgent c t).2.1 ≠ none) →
     (execAgent (.par n children) t).1.success = false ∧
     (execAgent (.par n children) t).2.1 ≠ none) := by
  constructor
  · intro hnd hok
    obtain ⟨u', hu⟩ := mergePar_ok t children t [] [] [] hok
    refine ⟨?_, ?_, ⟨parOutputsAux t children [], ?_, ?_, ?_⟩, ?_, ?_⟩
    · simp [execAgent_llm, execAgent_seq, execAgent_par, execAgent_pipe, hu]
    · simp [execAgent_llm, execAgent_seq, execAgent_par, execAgent_pipe, hu]
    · simp [execAgent_llm, execAgent_seq, execAgent_par, execAgent_pipe, hu]
    · intro c hc; exact parOutputsAux_get t children [] c hc hnd
    · intro k hk; rw [parOutputsAux_notin t children [] k hk]; rfl
    · simp [execAgent_llm, execAgent_seq, execAgent_par, execAgent_pipe, hu]
    · simp [execAgent_llm, execAgent_seq, execAgent_par, execAgent_pipe, hu]
  · intro hex
    obtain ⟨e, msg, u', s', a', o', hm⟩ := mergePar_fail t children t [] [] [] hex
    refine ⟨?_, ?_⟩ <;> simp [execAgent_llm, execAgent_seq, execAgent_par, execAgent_pipe, hm]

/-- A one-turn completing agent configuration named "x" with output "one". -/
def witCfgX1 : LLMAgentCfg := { name := "x", model := witDone "one", maxTurns := 1 }

/-- A second configuration also named "x", with output "two". -/
def witCfgX2 : LLMAgentCfg := { name := "x", model := witDone "two", maxTurns := 1 }

/-- Counterexample for C5 as stated: with two children both named "x", the
successful Parallel Result's output map has a single entry, holding the
second child's output — the first child's name is not mapped to that child's
output and the key set does not have one key per child. -/
theorem claim_C5_cex :
    (execAgent (.par "p" [.llm witCfgX1 [], .llm witCfgX2 []]) witTask).1.success = true ∧
    (execAgent (.llm witCfgX1 []) witTask).1.output = .vstr "one" ∧
    (execAgent (.par "p" [.llm witCfgX1 [], .llm witCfgX2 []]) witTask).1.output =
      .vmap [("x", .vstr "two")] := by
  refine ⟨?_, ?_, ?_⟩
  · rw [execAgent_par]
    simp only [execParGo, execAgent_llm]
    simp [execLLMLoop, witCfgX1, witCfgX2, witDone, witTask, llmComplete,
          strContains, strToLower, listHasSub, extractArtifacts, agentName,
          mergeParResults, stateSet]
  · rw [execAgent_llm]
    simp [execLLMLoop, witCfgX1, witDone, witTask, llmComplete,
          strContains, strToLower, listHasSub, extractArtifacts]
  · rw [execAgent_par]
    simp only [execParGo, execAgent_llm]
    simp [execLLMLoop, witCfgX1, witCfgX2, witDone, witTask, llmComplete,
          strContains, strToLower, listHasSub, extractArtifacts, agentName,
          mergeParResults, stateSet]

/-- Witness for the amended C5: two distinct-named one-turn children. -/
theorem claim_C5_witness :
    (execAgent (.par "p" [.llm witCfgA [], .llm witCfgB []]) witTask).1.success = true ∧
    (execAgent (.par "p" [.llm witCfgA [], .llm witCfgB []]) witTask).2.1 = none ∧
    (∃ outputs,
      (execAgent (.par "p" [.llm witCfgA [], .llm witCfgB []]) witTask).1.output = .vmap outputs ∧
      (∀ c ∈ [(.llm witCfgA [] : Agent), .llm witCfgB []],
        stateGet outputs (agentName c) = some (execAgent c witTask).1.output) ∧
      (∀ k, (∀ c ∈ [(.llm witCfgA [] : Agent), .llm witCfgB []], agentName c ≠ k) →
        stateGet outputs k = none)) ∧
    (execAgent (.par "p" [.llm witCfgA [], .llm witCfgB []]) witTask).1.steps =
      (([(.llm witCfgA [] : Agent), .llm witCfgB []]).map
        (fun c => (execAgent c witTask).1.steps)).flatten ∧
    (execAgent (.par "p" [.llm witCfgA [], .llm witCfgB []]) witTask).1.artifacts =
      (([(.llm witCfgA [] : Agent), .llm witCfgB []]).map
        (fun c => (execAgent c witTask).1.artifacts)).flatten := by
  have hok : ∀ c ∈ [(.llm witCfgA [] : Agent), .llm witCfgB []],
      (execAgent c witTask).2.1 = none := by
    intro c hc
    simp only [List.mem_cons, List.not_mem_nil, or_false] at hc
    rcases hc with rfl | rfl
    · simp [execAgent_llm, execAgent_seq, execAgent_par, execAgent_pipe, execLLMLoop, witCfgA, witDone, witTask, llmComplete, strContains,
            strToLower, listHasSub]
    · simp [execAgent_llm, execAgent_seq, execAgent_par, execAgent_pipe, execLLMLoop, witCfgB, witDone, witTask, llmComplete, strContains,
            strToLower, listHasSub]
  exact (claim_C5 "p" [.llm witCfgA [], .llm witCfgB []] witTask).1 (by decide) hok


/-! ## C6: merging tool results into working state -/

/-- Whether a `GoVal` is a Go map (`map[string]interface{}`). -/
def isGoMap : GoVal → Bool
  | .vmap _ => true
  | _ => false

/-- Folding map entries over the state leaves absent keys untouched. -/
theorem stateGet_foldl_notin :
    ∀ (es : List (String × GoVal)) (st : StateMap) (k : String),
      k ∉ es.map Prod.fst →
      stateGet (es.foldl (fun s kv => stateSet s kv.1 kv.2) st) k = stateGet st k := by
  intro es
  induction es with
  | nil => intro st k _; rfl
  | cons e l ih =>
    intro st k hk
    simp only [List.map_cons, List.mem_cons, not_or] at hk
    rw [List.foldl_cons, ih _ k hk.2]
    exact stateGet_stateSet_ne st e.1 e.2 k hk.1

/-- Folding map entries with pairwise-distinct keys binds each key to its
entry's value (overwriting whatever the state held before). -/
theorem stateGet_foldl_mem :
    ∀ (es : List (String × GoVal)) (st : StateMap) (k : String) (v : GoVal),
      (es.map Prod.fst).Nodup → (k, v) ∈ es →
      stateGet (es.foldl (fun s kv => stateSet s kv.1 kv.2) st) k = some v := by
  intro es
  induction es with
  | nil => intro st k v _ hm; exact absurd hm (List.not_mem_nil _)
  | cons e l ih =>
    intro st k v hnd hm
    simp only [List.map_cons, List.nodup_cons] at hnd
    rcases List.mem_cons.mp hm with rfl | hmem
    · rw [List.foldl_cons, stateGet_foldl_notin l _ _ hnd.1]
      exact stateGet_stateSet_self st _ _
    · rw [List.foldl_cons]
      exact ih _ k v hnd.2 hmem

/-- Claim C6: a resolved tool call's successful, non-nil result updates the
loop's working state via `applyToolResult`; a map result merges each entry
into the state (overwriting existing keys), any other value is stored under
the key formed from the tool's name and the suffix "_result", and a nil
result changes nothing. -/
theorem claim_C6 :
    (∀ (tools : List Tool) (st : StateMap) (tc : ToolCall) (rest : List ToolCall)
       (tool : Tool) (r : Option GoVal) (e : Option String),
       findTool tools tc.name = some tool → tool.run tc.arguments = (r, e) →
       runToolCalls tools st (tc :: rest) =
         ⟨{ tc with result := r, error := e } ::
            (runToolCalls tools (applyToolResult st tc.name r e) rest).calls,
          { tc with result := r, error := e } ::
            (runToolCalls tools (applyToolResult st tc.name r e) rest).stepCalls,
          (runToolCalls tools (applyToolResult st tc.name r e) rest).state⟩) ∧
    (∀ (st : StateMap) (toolName : String) (es : List (String × GoVal)),
       (es.map Prod.fst).Nodup →
       (∀ k v, (k, v) ∈ es →
          stateGet (applyToolResult st toolName (some (.vmap es)) none) k = some v) ∧
       (∀ k, k ∉ es.map Prod.fst →
          stateGet (applyToolResult st toolName (some (.vmap es)) none) k = stateGet st k)) ∧
    (∀ (st : StateMap) (toolName : String) (v : GoVal), isGoMap v = false →
       applyToolResult st toolName (some v) none =
         stateSet st (toolName ++ "_result") v) ∧
    (∀ (st : StateMap) (toolName : String),
       applyToolResult st toolName none none = st) := by
  refine ⟨?_, ?_, ?_, ?_⟩
  · intro tools st tc rest tool r e h hr
    simp [runToolCalls, h, hr]
  · intro st toolName es hnd
    constructor
    · intro k v hm
      simp only [applyToolResult]
      exact stateGet_foldl_mem es st k v hnd hm
    · intro k hk
      simp only [applyToolResult]
      exact stateGet_foldl_notin es st k hk
  · intro st toolName v hv
    cases v <;> first | rfl | simp [isGoMap] at hv
  · intro st toolName
    rfl

/-- Witness for C6: a "calculator" tool result {"result": 4} leaves
working-state key "result" equal to 4. -/
theorem claim_C6_witness :
    stateGet (applyToolResult [] "calculator" (some (.vmap [("result", .vint 4)])) none)
      "result" = some (.vint 4) :=
  (claim_C6.2.1 [] "calculator" [("result", .vint 4)] (by simp)).1 "result" (.vint 4) (by simp)

/-! ## C7: job status state machine -/

/-- Claim C7: a submitted job's status passes through exactly
pending, running, then exactly one of completed (agent returned no error) or
failed (agent returned an error); every transition the code performs is one
the spec allows, and the allowed relation has no transition out of a terminal
status. -/
theorem claim_C7 (agent : Agent) (id input : String) (params : List (String × GoVal))
    (config : Option ExecConfig) :
    (jobStatusTrace agent (submitJob id input params config) =
       [.pending, .running, .completed] ∨
     jobStatusTrace agent (submitJob id input params config) =
       [.pending, .running, .failed]) ∧
    List.Chain' SpecJobTransition (jobStatusTrace agent (submitJob id input params config)) ∧
    (∀ sNext, ¬ SpecJobTransition .completed sNext) ∧
    (∀ sNext, ¬ SpecJobTransition .failed sNext) ∧
    ((executeJob agent (submitJob id input params config)).status = .completed ↔
       (execAgent agent (submitJob id input params config).task.data).2.1 = none) := by
  rcases hx : execAgent agent (submitJob id input params config).task.data with ⟨r, e, d⟩
  simp only [submitJob] at hx
  cases e with
  | none =>
    have htr : jobStatusTrace agent (submitJob id input params config) =
        [.pending, .running, .completed] := by
      simp [jobStatusTrace, submitJob, executeJobStart, executeJobFinish, hx]
    refine ⟨Or.inl htr, ?_, ?_, ?_, ?_⟩
    · rw [htr]
      exact List.chain'_cons.mpr ⟨.start, List.chain'_cons.mpr ⟨.complete, List.chain'_singleton _⟩⟩
    · intro sN h; nomatch h
    · intro sN h; nomatch h
    · simp [executeJob, executeJobStart, executeJobFinish, submitJob, hx]
  | some err =>
    have htr : jobStatusTrace agent (submitJob id input params config) =
        [.pending, .running, .failed] := by
      simp [jobStatusTrace, submitJob, executeJobStart, executeJobFinish, hx]
    refine ⟨Or.inr htr, ?_, ?_, ?_, ?_⟩
    · rw [htr]
      exact List.chain'_cons.mpr ⟨.start, List.chain'_cons.mpr ⟨.fail, List.chain'_singleton _⟩⟩
    · intro sN h; nomatch h
    · intro sN h; nomatch h
    · simp [executeJob, executeJobStart, executeJobFinish, submitJob, hx]

/-! ## C8: the turn budget and the unread per-task config -/

/-- Claim C8: the reasoning loop's turn budget is the construction-time
MaxTurns (with a zero value replaced by the default 10 in `NewLLMAgent`), and
agent execution never reads the per-task ExecutionConfig: two tasks differing
only in their config produce identical results, errors, and task mutations. -/
theorem claim_C8 (cfg : LLMAgentCfg) (subs : List Agent) (a : Agent) (t : Task)
    (c₁ c₂ : Option ExecConfig) :
    agentMaxTurns (NewLLMAgent cfg subs) = (if cfg.maxTurns = 0 then 10 else cfg.maxTurns) ∧
    execAgent (.llm cfg subs) t.data =
      execLLMLoop execAgent cfg subs cfg.maxTurns (llmInitHistory cfg t.data) t.data [] ∧
    (executeTask a { t with config := c₁ }).1 = (executeTask a { t with config := c₂ }).1 ∧
    (executeTask a { t with config := c₁ }).2.1 = (executeTask a { t with config := c₂ }).2.1 ∧
    (executeTask a { t with config := c₁ }).2.2.data =
      (executeTask a { t with config := c₂ }).2.2.data ∧
    (executeTask a { t with config := c₁ }).2.2.config = c₁ := by
  rcases hx : execAgent a t.data with ⟨r, e, d⟩
  refine ⟨by simp [NewLLMAgent, agentMaxTurns], execAgent_llm cfg subs t.data, ?_, ?_, ?_, ?_⟩ <;>
    simp [executeTask, hx]


/-! ## C9: no step ever carries a state delta -/

/-- The merge loop's steps are delta-free when the child results' steps are. -/
theorem mergePar_delta :
    ∀ (children : List Agent) (results : List (Result × Option String)) (u : TaskData)
      (steps : List ExecutionStep) (arts : List Artifact) (outputs : List (String × GoVal)),
      (∀ p ∈ results, ∀ s ∈ p.1.steps, s.stateDelta = []) →
      (∀ s ∈ steps, s.stateDelta = []) →
      ∀ s ∈ (mergeParResults children results u steps arts outputs).1, s.stateDelta = [] := by
  intro children
  induction children with
  | nil =>
    intro results u steps arts outputs _ hacc s hs
    simp only [mergeParResults] at hs
    exact hacc s hs
  | cons c cs ih =>
    intro results u steps arts outputs hres hacc s hs
    cases results with
    | nil =>
      simp only [mergeParResults] at hs
      exact hacc s hs
    | cons p rs =>
      rcases p with ⟨r, _ | e⟩
      · have hr : ∀ x ∈ r.steps, x.stateDelta = [] :=
          fun x hx => hres (r, none) (by simp) x hx
        simp only [mergeParResults] at hs
        exact ih rs _ (steps ++ r.steps) (arts ++ r.artifacts) _
          (fun q hq => hres q (by simp [hq]))
          (fun x hx => (List.mem_append.mp hx).elim (hacc x) (hr x)) s hs
      · simp only [mergeParResults] at hs
        exact hacc s hs

/-- When the child results' steps are delta-free, the merge loop does not
change the parent task. -/
theorem mergePar_task :
    ∀ (children : List Agent) (results : List (Result × Option String)) (u : TaskData)
      (steps : List ExecutionStep) (arts : List Artifact) (outputs : List (String × GoVal)),
      (∀ p ∈ results, ∀ s ∈ p.1.steps, s.stateDelta = []) →
      (mergeParResults children results u steps arts outputs).2.2.2.2 = u := by
  intro children
  induction children with
  | nil => intro results u steps arts outputs _; simp [mergeParResults]
  | cons c cs ih =>
    intro results u steps arts outputs hres
    cases results with
    | nil => simp [mergeParResults]
    | cons p rs =>
      rcases p with ⟨r, _ | e⟩
      · rcases hl : r.steps.getLast? with _ | lastStep
        · simp only [mergeParResults, hl]
          exact ih rs u _ _ _ (fun q hq => hres q (by simp [hq]))
        · have hd : lastStep.stateDelta = [] :=
            hres (r, none) (by simp) lastStep (List.mem_of_mem_getLast? hl)
          simp only [mergeParResults, hl, hd, List.foldl_nil]
          exact ih rs u _ _ _ (fun q hq => hres q (by simp [hq]))
      · simp [mergeParResults]

/-- Every step the delegation scan produces is delta-free, given a
sub-executor that records only delta-free steps on the scanned agents. -/
theorem execDeleg_delta (f : SubExec) (cfg : LLMAgentCfg) (task : TaskData)
    (resp : ModelResponse) (steps : List ExecutionStep) :
    ∀ (remaining : List Agent),
      (∀ c ∈ remaining, ∀ u, ∀ x ∈ (f c u).1.steps, x.stateDelta = []) →
      (∀ s ∈ steps, s.stateDelta = []) →
      ∀ s ∈ (execDeleg f cfg task resp steps remaining).1.steps, s.stateDelta = [] := by
  intro remaining
  induction remaining with
  | nil =>
    intro _ hacc s hs
    simp only [execDeleg, llmComplete] at hs
    rcases List.mem_append.mp hs with h | h
    · exact hacc s h
    · simp only [List.mem_singleton] at h; subst h; rfl
  | cons sub rest ih =>
    intro hf hacc
    cases hmatch : strContains (strToLower resp.content) (strToLower (agentName sub)) with
    | false =>
      intro s hs
      simp only [execDeleg, hmatch, Bool.false_eq_true, if_false] at hs
      exact ih (fun c hc => hf c (by simp [hc])) hacc s hs
    | true =>
      have hr := hf sub (by simp) task
      intro s hs
      rcases hx : f sub task with ⟨r, _ | e, t'⟩
      · rw [hx] at hr
        simp only [execDeleg, hmatch, if_true, hx] at hs
        rcases List.mem_append.mp hs with h | h
        · rcases List.mem_append.mp h with h' | h'
          · exact hacc s h'
          · simp only [List.mem_singleton] at h'; subst h'; rfl
        · exact hr s h
      · simp only [execDeleg, hmatch, if_true, hx] at hs
        rcases List.mem_append.mp hs with h | h
        · exact hacc s h
        · simp only [List.mem_singleton] at h; subst h; rfl

/-- Every step the turn loop appends is delta-free, given a sub-executor
that records only delta-free steps on the delegable sub-agents. -/
theorem execLLMLoop_delta (f : SubExec) (cfg : LLMAgentCfg) (subs : List Agent)
    (hf : ∀ c ∈ subs, ∀ u, ∀ x ∈ (f c u).1.steps, x.stateDelta = []) :
    ∀ (fuel : Nat) (history : List Message) (task : TaskData)
      (steps : List ExecutionStep),
      (∀ s ∈ steps, s.stateDelta = []) →
      ∀ s ∈ (execLLMLoop f cfg subs fuel history task steps).1.steps,
        s.stateDelta = [] := by
  intro fuel
  induction fuel with
  | zero =>
    intro history task steps hacc s hs
    simp only [execLLMLoop] at hs
    exact hacc s hs
  | succ n ih =>
    intro history task steps hacc
    rcases hm : cfg.model task.input task.files cfg.tools history with e | resp
    · intro s hs
      simp only [execLLMLoop, hm] at hs
      rcases List.mem_append.mp hs with h | h
      · exact hacc s h
      · simp only [List.mem_singleton] at h; subst h; rfl
    · cases hempty : resp.toolCalls.isEmpty with
      | true =>
        cases hphrase : strContains (strToLower resp.content) "delegate to" with
        | true =>
          intro s hs
          simp only [execLLMLoop, hm, hempty, hphrase, if_true] at hs
          exact execDeleg_delta f cfg task resp steps subs hf hacc s hs
        | false =>
          intro s hs
          simp only [execLLMLoop, hm, hempty, hphrase, Bool.false_eq_true, if_false,
            llmComplete] at hs
          rcases List.mem_append.mp hs with h | h
          · exact hacc s h
          · simp only [List.mem_singleton] at h; subst h; rfl
      | false =>
        intro s hs
        simp only [execLLMLoop, hm, hempty, Bool.false_eq_true, if_false] at hs
        refine ih _ _ _ ?_ s hs
        intro x hx
        rcases List.mem_append.mp hx with h | h
        · exact hacc x h
        · simp only [List.mem_singleton] at h; subst h; rfl

/-- Every step the Sequential loop accumulates is delta-free, given a
sub-executor that records only delta-free steps on the children. -/
theorem execSeqGo_delta (f : SubExec) :
    ∀ (children : List Agent),
      (∀ c ∈ children, ∀ u, ∀ x ∈ (f c u).1.steps, x.stateDelta = []) →
      ∀ (task : TaskData) (steps : List ExecutionStep) (arts : List Artifact)
        (out : GoVal),
      (∀ s ∈ steps, s.stateDelta = []) →
      ∀ s ∈ (execSeqGo f children task steps arts out).1, s.stateDelta = [] := by
  intro children
  induction children with
  | nil =>
    intro _ task steps arts out hacc s hs
    simp only [execSeqGo] at hs
    exact hacc s hs
  | cons c rest ih =>
    intro hf task steps arts out hacc
    have hr := hf c (by simp) task
    rcases hx : f c task with ⟨r, _ | e, t'⟩
    · rw [hx] at hr
      intro s hs
      simp only [execSeqGo, hx] at hs
      exact ih (fun q hq => hf q (by simp [hq])) t' (steps ++ r.steps)
        (arts ++ r.artifacts) r.output
        (fun x hx' => (List.mem_append.mp hx').elim (hacc x) (hr x)) s hs
    · intro s hs
      simp only [execSeqGo, hx] at hs
      rcases List.mem_append.mp hs with h | h
      · exact hacc s h
      · simp only [List.mem_singleton] at h; subst h; rfl

/-- Every per-child result collected by the Parallel fork has delta-free
steps, given a sub-executor that records only delta-free steps. -/
theorem execParGo_delta (f : SubExec) :
    ∀ (children : List Agent) (task : TaskData),
      (∀ c ∈ children, ∀ u, ∀ x ∈ (f c u).1.steps, x.stateDelta = []) →
      ∀ p ∈ execParGo f children task, ∀ s ∈ p.1.steps, s.stateDelta = [] := by
  intro children
  induction children with
  | nil =>
    intro task _ p hp
    simp [execParGo] at hp
  | cons c rest ih =>
    intro task hf p hp
    simp only [execParGo, List.mem_cons] at hp
    rcases hp with rfl | hp
    · have hr := hf c (by simp) task
      rcases hx : f c task with ⟨r, e, t'⟩
      rw [hx] at hr
      simp only [hx]
      exact hr
    · exact ih task (fun q hq => hf q (by simp [hq])) p hp

/-- Every step the Pipeline loop accumulates is delta-free, given a
sub-executor that records only delta-free steps on the stages. -/
theorem execPipeGo_delta (f : SubExec) :
    ∀ (stages : List Agent),
      (∀ c ∈ stages, ∀ u, ∀ x ∈ (f c u).1.steps, x.stateDelta = []) →
      ∀ (task : TaskData) (cur : String) (steps : List ExecutionStep)
        (arts : List Artifact),
      (∀ s ∈ steps, s.stateDelta = []) →
      ∀ s ∈ (execPipeGo f stages task cur steps arts).1, s.stateDelta = [] := by
  intro stages
  induction stages with
  | nil =>
    intro _ task cur steps arts hacc s hs
    simp only [execPipeGo] at hs
    exact hacc s hs
  | cons st rest ih =>
    intro hf task cur steps arts hacc
    have hr := hf st (by simp) { task with input := cur }
    rcases hx : f st { task with input := cur } with ⟨r, _ | e, t'⟩
    · rw [hx] at hr
      intro s hs
      simp only [execPipeGo, hx] at hs
      exact ih (fun q hq => hf q (by simp [hq])) t' (coerceOutput r.output)
        (steps ++ r.steps) (arts ++ r.artifacts)
        (fun x hx' => (List.mem_append.mp hx').elim (hacc x) (hr x)) s hs
    · intro s hs
      simp only [execPipeGo, hx] at hs
      exact hacc s hs

/-- Under any fuel, `execF` records only delta-free steps. -/
theorem execF_delta :
    ∀ (fuel : Nat) (a : Agent) (t : TaskData),
      ∀ s ∈ (execF fuel a t).1.steps, s.stateDelta = [] := by
  intro fuel
  induction fuel with
  | zero =>
    intro a t s hs
    simp only [execF] at hs
    exact absurd hs (List.not_mem_nil s)
  | succ n ih =>
    intro a t
    cases a with
    | llm cfg subs =>
      simp only [execF]
      exact execLLMLoop_delta (execF n) cfg subs (fun c _ u => ih c u)
        cfg.maxTurns (llmInitHistory cfg t) t []
        (fun x hx => absurd hx (List.not_mem_nil x))
    | seq nm children =>
      have hsteps := execSeqGo_delta (execF n) children (fun c _ u => ih c u)
        t [] [] .vnil (fun x hx => absurd hx (List.not_mem_nil x))
      rcases hq : execSeqGo (execF n) children t [] [] GoVal.vnil with
        ⟨steps, arts, out, _ | ⟨e, msg⟩, t'⟩
      · rw [hq] at hsteps
        intro s hs
        simp only [execF, hq] at hs
        exact hsteps s hs
      · rw [hq] at hsteps
        intro s hs
        simp only [execF, hq] at hs
        exact hsteps s hs
    | par nm children =>
      have hres := execParGo_delta (execF n) children t (fun c _ u => ih c u)
      have hsteps := mergePar_delta children (execParGo (execF n) children t) t [] [] []
        hres (fun x hx => absurd hx (List.not_mem_nil x))
      rcases hq : mergeParResults children (execParGo (execF n) children t) t [] [] [] with
        ⟨steps, arts, outs, _ | ⟨e, msg⟩, t'⟩
      · rw [hq] at hsteps
        intro s hs
        simp only [execF, hq] at hs
        exact hsteps s hs
      · rw [hq] at hsteps
        intro s hs
        simp only [execF, hq] at hs
        exact hsteps s hs
    | pipe nm stages =>
      have hsteps := execPipeGo_delta (execF n) stages (fun c _ u => ih c u)
        t t.input [] [] (fun x hx => absurd hx (List.not_mem_nil x))
      rcases hq : execPipeGo (execF n) stages t t.input [] [] with
        ⟨steps, arts, cur, _ | ⟨e, msg⟩, t'⟩
      · rw [hq] at hsteps
        intro s hs
        simp only [execF, hq] at hs
        exact hsteps s hs
      · rw [hq] at hsteps
        intro s hs
        simp only [execF, hq] at hs
        exact hsteps s hs

/-- No agent execution in this repository ever records a step with a non-nil
state delta: no code path writes `StateDelta`. -/
theorem execAgent_delta (a : Agent) (t : TaskData) :
    ∀ s ∈ (execAgent a t).1.steps, s.stateDelta = [] := by
  simp only [execAgent]
  exact execF_delta (agentSize a) a t

/-- Claim C9: every step appended by the reasoning loop has a nil StateDelta,
so for a Parallel agent whose children are all LLM agents the post-join merge
of last-step deltas changes nothing: the parent task (in particular its
working state) is unchanged by the call. -/
theorem claim_C9 (cfg : LLMAgentCfg) (subs : List Agent) (t : TaskData)
    (n : String) (children : List Agent) :
    (∀ s ∈ (execAgent (.llm cfg subs) t).1.steps, s.stateDelta = []) ∧
    ((∀ c ∈ children, ∃ cfg' subs', c = .llm cfg' subs') →
      (execAgent (.par n children) t).2.2 = t ∧
      (execAgent (.par n children) t).2.2.state = t.state) := by
  refine ⟨execAgent_delta (.llm cfg subs) t, ?_⟩
  intro _hllm
  have hres := execParGo_delta execAgent children t (fun c _ u => execAgent_delta c u)
  have htask := mergePar_task children (execParGo execAgent children t) t [] [] [] hres
  have hmain : (execAgent (.par n children) t).2.2 = t := by
    rcases hq : mergeParResults children (execParGo execAgent children t) t [] [] [] with
      ⟨steps, arts, outs, _ | ⟨e, msg⟩, t'⟩
    · rw [hq] at htask
      simp only [execAgent_llm, execAgent_seq, execAgent_par, execAgent_pipe, hq]
      exact htask
    · rw [hq] at htask
      simp only [execAgent_llm, execAgent_seq, execAgent_par, execAgent_pipe, hq]
      exact htask
  exact ⟨hmain, by rw [hmain]⟩

/-- Witness for C9: a Parallel agent over one concrete LLM child leaves the
parent task untouched. -/
theorem claim_C9_witness :
    (∀ s ∈ (execAgent (.llm witCfgA []) witTask).1.steps, s.stateDelta = []) ∧
    (execAgent (.par "p" [.llm witCfgA []]) witTask).2.2 = witTask ∧
    (execAgent (.par "p" [.llm witCfgA []]) witTask).2.2.state = witTask.state := by
  have h := claim_C9 witCfgA [] witTask "p" [.llm witCfgA []]
  have hllm : ∀ c ∈ [(.llm witCfgA [] : Agent)], ∃ cfg' subs', c = Agent.llm cfg' subs' := by
    intro c hc
    simp only [List.mem_singleton] at hc
    exact ⟨witCfgA, [], hc⟩
  exact ⟨h.1, (h.2 hllm).1, (h.2 hllm).2⟩


/-! ## C10: in-place mutation of task.Input by the pipeline -/

/-- Claim C10 (amended): a successful pipeline run with at least two stages
leaves the caller's task.Input holding the input that was fed to the last
stage — the coerced output of the second-to-last stage — provided the last
stage's own execution preserves task.Input (as the reasoning loop does); a
last stage that itself rewrites task.Input (such as a nested Pipeline)
leaves its own final value instead. The original input is not restored. -/
theorem claim_C10 (n : String) (ds : List Agent) (y z : Agent) (t : TaskData)
    (s1 : List ExecutionStep) (a1 : List Artifact) (cur1 : String) (t1 : TaskData)
    (ry : Result) (ty : TaskData)
    (h1 : execPipeGo execAgent ds t t.input [] [] = (s1, a1, cur1, none, t1))
    (h2 : execAgent y { t1 with input := cur1 } = (ry, none, ty))
    (h3 : ∀ u, (execAgent z u).2.2.input = u.input)
    (h4 : (execAgent z { ty with input := coerceOutput ry.output }).2.1 = none) :
    (execAgent (.pipe n (ds ++ [y, z])) t).2.1 = none ∧
    (execAgent (.pipe n (ds ++ [y, z])) t).1.success = true ∧
    (execAgent (.pipe n (ds ++ [y, z])) t).2.2.input = coerceOutput ry.output := by
  rcases hz : execAgent z { ty with input := coerceOutput ry.output } with ⟨rz, ez, tz⟩
  have hez : ez = none := by rw [hz] at h4; exact h4
  subst hez
  have hrun : execPipeGo execAgent (ds ++ [y, z]) t t.input [] [] =
      (s1 ++ ry.steps ++ rz.steps, a1 ++ ry.artifacts ++ rz.artifacts,
       coerceOutput rz.output, none, tz) := by
    rw [execPipeGo_append, h1]
    simp only [execPipeGo, h2, hz]
  have hinput : tz.input = coerceOutput ry.output := by
    have hh := h3 { ty with input := coerceOutput ry.output }
    rw [hz] at hh
    simpa using hh
  refine ⟨?_, ?_, ?_⟩ <;> simp [execAgent_llm, execAgent_seq, execAgent_par, execAgent_pipe, hrun, hinput]

/-- A one-turn completing agent configuration named "z". -/
def witCfgZ : LLMAgentCfg := { name := "z", model := witDone "zout", maxTurns := 1 }

/-- Witness for the amended C10: a two-stage pipeline of reasoning agents
leaves task.Input equal to the first stage's coerced output. -/
theorem claim_C10_witness :
    (execAgent (.pipe "pl" [.llm witCfgA [], .llm witCfgZ []]) witTask).2.1 = none ∧
    (execAgent (.pipe "pl" [.llm witCfgA [], .llm witCfgZ []]) witTask).1.success = true ∧
    (execAgent (.pipe "pl" [.llm witCfgA [], .llm witCfgZ []]) witTask).2.2.input =
      coerceOutput witAResult.output := by
  have h1 : execPipeGo execAgent [] witTask witTask.input [] [] =
      ([], [], "in", none, witTask) := by simp [execPipeGo, witTask]
  have h2 : execAgent (.llm witCfgA []) { witTask with input := "in" } =
      (witAResult, none, { witTask with input := "in" }) := by
    simp [execAgent_llm, execAgent_seq, execAgent_par, execAgent_pipe, execLLMLoop, witCfgA, witDone, witTask, llmComplete, strContains,
          strToLower, listHasSub, extractArtifacts, witAResult]
  have h3 : ∀ u, (execAgent (.llm witCfgZ []) u).2.2.input = u.input := by
    intro u
    simp [execAgent_llm, execAgent_seq, execAgent_par, execAgent_pipe, execLLMLoop, witCfgZ, witDone, llmComplete, strContains,
          strToLower, listHasSub]
  have h4 : (execAgent (.llm witCfgZ [])
      { ({ witTask with input := "in" } : TaskData) with
        input := coerceOutput witAResult.output }).2.1 = none := by
    simp [execAgent_llm, execAgent_seq, execAgent_par, execAgent_pipe, execLLMLoop, witCfgZ, witDone, llmComplete, strContains,
          strToLower, listHasSub, witAResult, coerceOutput, witTask]
  exact claim_C10 "pl" [] (.llm witCfgA []) (.llm witCfgZ []) witTask [] [] "in" witTask
    witAResult { witTask with input := "in" } h1 h2 h3 h4

/-- Stage configurations for the nested-pipeline counterexample. -/
def witCfgSa : LLMAgentCfg := { name := "sa", model := witDone "a", maxTurns := 1 }

/-- Second stage configuration, output "b". -/
def witCfgSb : LLMAgentCfg := { name := "sb", model := witDone "b", maxTurns := 1 }

/-- Third stage configuration, output "c". -/
def witCfgSc : LLMAgentCfg := { name := "sc", model := witDone "c", maxTurns := 1 }

/-- The outer pipeline whose last stage is itself a pipeline. -/
def witOuter : Agent :=
  .pipe "p" [.llm witCfgSa [], .pipe "q" [.llm witCfgSb [], .llm witCfgSc []]]

/-- Counterexample for C10 as stated: in a successful two-stage run whose
last stage is a nested pipeline, the final task.Input is "b" (written by the
nested pipeline), not the coerced output "a" of the outer second-to-last
stage. -/
theorem claim_C10_cex :
    (execAgent witOuter witTask).2.1 = none ∧
    coerceOutput (execAgent (.llm witCfgSa []) witTask).1.output = "a" ∧
    (execAgent witOuter witTask).2.2.input = "b" ∧
    ("b" : String) ≠ "a" := by
  refine ⟨?_, ?_, ?_, by decide⟩ <;>
    simp [witOuter, execAgent_pipe, execAgent_llm, execPipeGo, execLLMLoop,
          witCfgSa, witCfgSb, witCfgSc, witDone, witTask, llmComplete,
          strContains, strToLower, listHasSub, extractArtifacts, coerceOutput]

end Gonostic
